import Mathlib

/-!
Verification of the wp2block markup engine: a shallow embedding of the
shortcode rewriter (`shortcode/shortcode.go`), the WP-LaTeX rewriter and
the Markdown renderer's writer (`html2markdown.go`), with theorems about
the behaviour the specification describes.

Go strings are embedded as lists of characters (the code scans text by
rune in `processTextNode` and otherwise only distinguishes ASCII bytes,
so the two views agree).  Go's runtime panics (out-of-range slices) are
made explicit as a `panicked` outcome.  Loops whose progress depends on
data (index-advancing scans, tree splitting) are written as structural
recursion on an explicit step budget; each wrapper supplies a budget
that provably exceeds the number of steps the Go loop performs, so the
budget case is unreachable.
-/

namespace Wp2block

/-- A Go string, viewed as its sequence of characters. -/
abbrev GoStr := List Char

/-- Convert a Lean string literal to the embedded representation. -/
def gs (s : String) : GoStr := s.data

/-- Result of running Go code that may panic at runtime. -/
inductive GoResult (α : Type) where
  | panicked
  | ok (val : α)
deriving Repr, DecidableEq

/-- Result of an operation that may panic or return an error. -/
inductive Outcome (α : Type) where
  | panicked
  | err (msg : String)
  | ok (val : α)
deriving Repr, DecidableEq

/-- `isSpace` from shortcode.go: Perl space class. -/
def isSpace (ch : Char) : Bool :=
  ch = ' ' || ch = '\t' || ch = '\n' || ch = '\r' || ch = '\x0c'

/-- `isWord` from shortcode.go: Perl word class. -/
def isWord (ch : Char) : Bool :=
  ('A' ≤ ch && ch ≤ 'Z') || ('a' ≤ ch && ch ≤ 'z') || ('0' ≤ ch && ch ≤ '9') || ch = '_'

/-- `isShortname` from shortcode.go: characters allowed in shortcode names. -/
def isShortname (ch : Char) : Bool :=
  ('A' ≤ ch && ch ≤ 'Z') || ('a' ≤ ch && ch ≤ 'z') || ('0' ≤ ch && ch ≤ '9') || ch = '_' || ch = '-'

/-- The number of leading characters of `s` satisfying `p`. -/
def scanWhileL (p : Char → Bool) : GoStr → Nat
  | [] => 0
  | c :: rest => if p c then scanWhileL p rest + 1 else 0

/-- Advance an index while the predicate holds, mirroring the
`for i < len(s) && p(s[i]) { i++ }` loops of the Go code. -/
def scanWhile (p : Char → Bool) (s : GoStr) (i : Nat) : Nat :=
  i + scanWhileL p (s.drop i)

/-- Go's `strings.Index` for a single character: first index, or -1. -/
def goIndex (s : GoStr) (c : Char) : Int :=
  match s.findIdx? (· == c) with
  | some i => (i : Int)
  | none => -1

/-- Go's `strings.Index` for a substring: first index where `pat` occurs
in `s`, or -1. -/
def goIndexStr (s pat : GoStr) : Int :=
  match (List.range (s.length + 1)).find? (fun k => pat.isPrefixOf (s.drop k)) with
  | some k => (k : Int)
  | none => -1

/-- Go slice `s[a:b]` in the in-bounds case. -/
def goSlice (s : GoStr) (a b : Nat) : GoStr := (s.drop a).take (b - a)

/-- The static shortcode registry `shortcodeIsBlock` from shortcode.go:
`some b` when the tag is registered (`b` = is it a block tag),
`none` for unknown tags. -/
def shortcodeIsBlock (t : GoStr) : Option Bool :=
  if t = gs "caption" then some true
  else if t = gs "wp_caption" then some true
  else if t = gs "latex" then some true
  else none

/-- The `tagOpen` flag bit. -/
def tagOpen : Nat := 1

/-- The `tagClose` flag bit. -/
def tagClose : Nat := 2

/-- The four results of `parseShortcode`: consumed size, open/close flags,
tag name, and the attribute substring. -/
structure ShortcodeParse where
  size : Nat
  openClose : Nat
  tag : GoStr
  rest : GoStr
deriving Repr, DecidableEq

/-- The `startEscape` local of `parseShortcode`: does the text (after the
initial `[`) start with a second `[`? -/
def scStartEscape (text : GoStr) : Bool :=
  decide (0 < text.length ∧ text.getD 0 ' ' = '[')

/-- Scan position after the optional escape bracket. -/
def scP1 (text : GoStr) : Nat := if scStartEscape text then 1 else 0

/-- Is this a closing tag (`/` after the optional escape bracket)? -/
def scIsClose (text : GoStr) : Bool :=
  decide (scP1 text < text.length ∧ text.getD (scP1 text) ' ' = '/')

/-- The `pos`/`namestart` local of `parseShortcode`: start of the name scan. -/
def scPos (text : GoStr) : Nat := if scIsClose text then scP1 text + 1 else scP1 text

/-- The `nameend` local of `parseShortcode`: one-character minimum, then a
maximal run of name characters. -/
def scNameEnd (text : GoStr) : Nat := scanWhile isShortname text (scPos text + 1)

/-- The `tag` local of `parseShortcode` (the slice `text[namestart:nameend]`). -/
def scTag (text : GoStr) : GoStr := goSlice text (scPos text) (scNameEnd text)

/-- `parseShortcode` from shortcode.go: `text` is everything after the
initial `[`.  The slice `text[namestart:nameend]` panics when the name
scan starts at or past the end of the string (a `[` at the very end of a
text node), which the embedding records as `panicked`. -/
def parseShortcode (text : GoStr) : GoResult ShortcodeParse :=
  let oc0 : Nat := if scIsClose text then tagClose else tagOpen
  let nameend := scNameEnd text
  if nameend > text.length then .panicked else
  let tag := scTag text
  match shortcodeIsBlock tag with
  | none => .ok ⟨0, oc0, tag, []⟩
  | some block =>
    if ¬ block ∧ oc0 = tagClose then .ok ⟨0, oc0, tag, []⟩ else
    let oc1 : Nat := if ¬ block then tagOpen ||| tagClose else oc0
    let endI : Int := goIndex text ']'
    if endI < (nameend : Int) then .ok ⟨0, oc1, tag, []⟩ else
    let e : Nat := endI.toNat
    if scStartEscape text = true ∧ e = nameend ∧ e + 1 < text.length ∧ text.getD (e+1) ' ' = ']' then
      .ok ⟨e + 2, 0, [], goSlice text 0 (e+1)⟩
    else if text.getD (e-1) ' ' = '/' then
      .ok ⟨e + 1, oc1 ||| tagClose, tag, goSlice text nameend (e-1)⟩
    else if oc1 &&& tagClose ≠ 0 ∧ nameend ≠ e then
      .ok ⟨0, oc1, tag, []⟩
    else
      .ok ⟨e + 1, oc1, tag, goSlice text nameend e⟩

/-- The `key=value` attempt of one `parseAttrs` loop iteration:
`some (value, position after the value)` on success. -/
def attrKeyValue (attrs : GoStr) (pos : Nat) : Option (GoStr × Nat) :=
  let keyEnd := scanWhile isWord attrs pos
  let eqPos := scanWhile isSpace attrs keyEnd
  if eqPos < attrs.length ∧ attrs.getD eqPos ' ' = '=' then
    let valPos := scanWhile isSpace attrs (eqPos + 1)
    if valPos < attrs.length then
      let q := attrs.getD valPos ' '
      let quoted : Option (GoStr × Nat) :=
        if q = '"' ∨ q = '\'' then
          let innerEndI : Int := (valPos + 1 : Int) + goIndex (attrs.drop (valPos + 1)) q
          if innerEndI > (valPos : Int) then
            some (goSlice attrs (valPos + 1) innerEndI.toNat, innerEndI.toNat + 1)
          else none
        else none
      match quoted with
      | some r => some r
      | none =>
        let valEnd := scanWhile (fun c => !isSpace c && c ≠ '"' && c ≠ '\'') attrs valPos
        if valEnd ≠ valPos then some (goSlice attrs valPos valEnd, valEnd) else none
    else none
  else none

/-- The positional ("indexed") value fallback of one `parseAttrs` loop
iteration: the value and the position after it. -/
def attrIndexed (attrs : GoStr) (pos : Nat) : GoStr × Nat :=
  let fallback : GoStr × Nat :=
    let e := scanWhile (fun c => !isSpace c) attrs pos
    (goSlice attrs pos e, e)
  if attrs.getD pos ' ' = '"' then
    let innerEndI : Int := (pos + 1 : Int) + goIndex (attrs.drop (pos + 1)) '"'
    if innerEndI > (pos : Int) then
      (goSlice attrs (pos + 1) innerEndI.toNat, innerEndI.toNat + 1)
    else fallback
  else fallback

/-- The loop of `parseAttrs` from shortcode.go, producing the (key, value)
pairs it appends to the node.  `pos0` is the scan position, `keyIdx` the
counter for positional `@n` keys, and `fuel` a step budget: each
iteration strictly advances `pos0`, so the wrapper's budget of
`attrs.length + 1` is never exhausted. -/
def parseAttrsF (attrs : GoStr) : Nat → Nat → Nat → List (GoStr × GoStr)
  | _, _, 0 => []
  | keyIdx, pos0, fuel + 1 =>
    if pos0 < attrs.length then
      let pos := scanWhile isSpace attrs pos0
      if attrs.length ≤ pos then [] else
      match attrKeyValue attrs pos with
      | some (v, newPos) =>
        (goSlice attrs pos (scanWhile isWord attrs pos), v) :: parseAttrsF attrs keyIdx newPos fuel
      | none =>
        let idxRes := attrIndexed attrs pos
        (gs ("@" ++ toString keyIdx), idxRes.1) :: parseAttrsF attrs (keyIdx + 1) idxRes.2 fuel
    else []

/-- `parseAttrs`: parse the attribute substring of a shortcode tag into
the ordered (key, value) list. -/
def parseAttrs (attrs : GoStr) : List (GoStr × GoStr) :=
  parseAttrsF attrs 0 0 (attrs.length + 1)

/-- Attribute list of a node: (key, value) pairs, keys not necessarily unique. -/
abbrev Attrs := List (GoStr × GoStr)

mutual

/-- One `html.Node` of the document tree.  `ns` is the namespace field
("wp" marks synthetic shortcode nodes, "" native markup); node kinds
other than Text and Element, which the rewriter ignores, are collapsed
into `other`. -/
inductive Node where
  | text (data : GoStr)
  | elem (tag : GoStr) (ns : GoStr) (attrs : Attrs) (children : NodeList)
  | other
deriving Repr, DecidableEq

/-- An ordered sibling list of nodes (the child list of an element). -/
inductive NodeList where
  | nil
  | cons (n : Node) (rest : NodeList)
deriving Repr, DecidableEq

end

/-- Build a `NodeList` from a Lean list (for writing concrete trees). -/
def nl : List Node → NodeList
  | [] => .nil
  | n :: rest => .cons n (nl rest)

/-- Append two sibling lists. -/
def NodeList.append : NodeList → NodeList → NodeList
  | .nil, ys => ys
  | .cons x xs, ys => .cons x (xs.append ys)

mutual

/-- Size of a node: 1 plus its text length or the size of its children.
Splitting a text node at a shortcode strictly shrinks this measure. -/
def nodeSize : Node → Nat
  | .text d => d.length + 1
  | .elem _ _ _ kids => 1 + nodesSize kids
  | .other => 1

/-- Total size of a sibling list. -/
def nodesSize : NodeList → Nat
  | .nil => 0
  | .cons n rest => nodeSize n + nodesSize rest

end

mutual

/-- `cleanupTree` from shortcode.go on one node: remove empty text
children left behind by splitting, recursively. -/
def cleanupNode : Node → Node
  | .text d => .text d
  | .elem t ns a kids => .elem t ns a (cleanupList kids)
  | .other => .other

/-- `cleanupTree` on a child list: drop text nodes with empty data and
recurse into elements; other node kinds are ignored. -/
def cleanupList : NodeList → NodeList
  | .nil => .nil
  | .cons (.text []) rest => cleanupList rest
  | .cons (.text d) rest => .cons (.text d) (cleanupList rest)
  | .cons (.elem t ns a kids) rest => .cons (.elem t ns a (cleanupList kids)) (cleanupList rest)
  | .cons .other rest => .cons .other (cleanupList rest)

end

/-- The "wp" namespace that marks synthetic shortcode nodes. -/
def wpNamespace : GoStr := gs "wp"

/-- The result of scanning one text node for the next shortcode:
either no (further) tag was found and the node's final data is returned,
or a real tag was found — the text before it, the open/close flags, the
tag name, the attribute substring and the text after it — or the scan
panicked inside `parseShortcode`. -/
inductive TextStep where
  | panicked
  | noTag (data : GoStr)
  | tagFound (pre : GoStr) (oc : Nat) (tag : GoStr) (rest : GoStr) (suffix : GoStr)
deriving Repr, DecidableEq

/-- The scanning loop of `processTextNode` from shortcode.go: walk `data`
from position `i` looking for `[`; hand candidates to `parseShortcode`;
splice escape replacements into the data in place and continue just past
them; stop at the first real tag.  `fuel` is a step budget: every
iteration decreases `data.length - i`, so the wrapper's budget of
`data.length + 1` is never exhausted. -/
def scanFromF : Nat → GoStr → Nat → TextStep
  | 0, data, _ => .noTag data
  | fuel + 1, data, i =>
    if i < data.length then
      if data.getD i ' ' = '[' then
        match parseShortcode (data.drop (i + 1)) with
        | .panicked => .panicked
        | .ok r =>
          if r.size ≠ 0 then
            if r.tag = [] then
              scanFromF fuel (data.take i ++ r.rest ++ data.drop (i + 1 + r.size))
                (i + r.rest.length)
            else
              .tagFound (data.take i) r.openClose r.tag r.rest (data.drop (i + 1 + r.size))
          else scanFromF fuel data (i + 1)
      else scanFromF fuel data (i + 1)
    else .noTag data

/-- Scan a text node's data for its first shortcode. -/
def scanText (data : GoStr) : TextStep := scanFromF (data.length + 1) data 0

/-- One entry of the open-tag stack: the tag name and the index (into the
current parent's produced child slots) of the element node created for it. -/
structure Frame where
  tag : GoStr
  idx : Nat
deriving Repr, DecidableEq

/-- One produced child of the current parent: either a node placed as-is,
or an element created for an open shortcode whose child list is still
being collected (children are appended while the tag is on the stack). -/
inductive Slot where
  | plain (n : Node)
  | created (tag : GoStr) (attrs : Attrs) (children : NodeList)
deriving Repr, DecidableEq

/-- `newParent.AppendChild(n)`: append `n` to the children of the created
element at index `idx`.  (The stack only ever points at created slots.) -/
def slotAddChild (slots : List Slot) (idx : Nat) (n : Node) : List Slot :=
  match slots.get? idx with
  | some (.created t a c) => slots.set idx (.created t a (c.append (.cons n .nil)))
  | _ => slots

/-- Place a processed child: reparent it under the innermost open tag
captured at the start of the iteration, or keep it under the parent. -/
def place (slots : List Slot) (top : Option Frame) (n : Node) : List Slot :=
  match top with
  | none => slots ++ [.plain n]
  | some f => slotAddChild slots f.idx n

/-- Turn a finished slot into the node it denotes; created elements carry
the "wp" namespace, as in `handleShortcode`. -/
def finalizeSlot : Slot → Node
  | .plain n => n
  | .created t a c => .elem t wpNamespace a c

/-- The finished child list of a parent. -/
def finalize (slots : List Slot) : NodeList := nl (slots.map finalizeSlot)

/-- The `handleShortcode` mismatch error message. -/
def mismatchMsg (tag openT : GoStr) : String :=
  "shortcode: unexpected closing shortcode '" ++ String.mk tag ++ "', '" ++
    String.mk openT ++ "' is still open."

/-- The `processNode` end-of-children error message (the tag names of the
still-open shortcodes, outermost first). -/
def stillOpenMsg (stack : List Frame) : String :=
  "shortcodes still open at end of surrounding HTML tag: " ++
    String.intercalate ", " ((stack.map (fun f => String.mk f.tag)).reverse)

/-- The child-processing loop of `processNode` from shortcode.go.  `work`
is the remaining sibling list, `slots` the children already produced for
the current parent, `stack` the open-tag stack (innermost first).  Each
text node is scanned up to its first real shortcode; the node is split
there, the created element (on open) is inserted as a sibling, and the
remainder continues as the next sibling.  After each child, the child is
reparented under the innermost tag that was open when its iteration
started.  A close with an empty stack panics (`tags[:l-1]` on an empty
slice); a close that does not match the innermost open tag is a
structural error; a non-empty stack at the end of the children is a
structural error.  `fuel` is a step budget: every step strictly shrinks
the total size of `work`, so the wrapper's budget is never exhausted. -/
def procChildrenF : Nat → NodeList → List Slot → List Frame → Outcome (List Slot)
  | 0, _, slots, _ => .ok slots
  | fuel + 1, work, slots, stack =>
    match work with
    | .nil => if stack ≠ [] then .err (stillOpenMsg stack) else .ok slots
    | .cons .other rest => procChildrenF fuel rest (place slots stack.head? .other) stack
    | .cons (.elem t ns a kids) rest =>
      match procChildrenF fuel kids [] [] with
      | .ok inner =>
        procChildrenF fuel rest (place slots stack.head? (.elem t ns a (finalize inner))) stack
      | .err m => .err m
      | .panicked => .panicked
    | .cons (.text d) rest =>
      match scanText d with
      | .panicked => .panicked
      | .noTag d2 => procChildrenF fuel rest (place slots stack.head? (.text d2)) stack
      | .tagFound pre oc tg restAttrs suffix =>
        let slots1 := place slots stack.head? (.text pre)
        let slots2 := if oc &&& tagOpen ≠ 0 then
            slots1 ++ [.created tg (parseAttrs restAttrs) .nil] else slots1
        let stack1 := if oc &&& tagOpen ≠ 0 then
            (⟨tg, slots1.length⟩ : Frame) :: stack else stack
        if oc &&& tagClose ≠ 0 then
          match stack1 with
          | [] => .panicked
          | f :: fs =>
            if f.tag ≠ tg then .err (mismatchMsg tg f.tag)
            else procChildrenF fuel (.cons (.text suffix) rest) slots2 fs
        else procChildrenF fuel (.cons (.text suffix) rest) slots2 stack1

/-- `ProcessShortcodes` from shortcode.go, acting on the child list of the
root node: process all shortcodes, then clean up empty text nodes. -/
def processShortcodesL (kids : NodeList) : Outcome NodeList :=
  match procChildrenF (nodesSize kids + 1) kids [] [] with
  | .ok slots => .ok (cleanupList (finalize slots))
  | .err m => .err m
  | .panicked => .panicked

/-- The marker `"$latex "` (with its trailing space). -/
def latexStart : GoStr := gs "$latex "

/-- The end-of-span scan of `processLatexTextNode`: the number of
characters before the terminating unescaped `$`, a backslash consuming
the following character. -/
def latexEndL : GoStr → Nat
  | [] => 0
  | c :: rest =>
    if c = '$' then 0
    else if c = '\\' then
      match rest with
      | [] => 2
      | _ :: rest2 => 2 + latexEndL rest2
    else 1 + latexEndL rest

/-- The `end` scan of `processLatexTextNode` starting from index `e`
(the Go loop `for end < len && data[end] != '$' { if '\\' {end++}; end++ }`). -/
def latexEndScan (data : GoStr) (e : Nat) : Nat := e + latexEndL (data.drop e)

/-- `processLatexNode`/`processLatexTextNode` from shortcode.go: find each
`$latex ` marker, scan for its unescaped `$` terminator, split the text
node around the span and insert a synthetic `latex` element; with no
terminator the rest of the node is left as-is.  `fuel` is a step budget:
every step strictly shrinks the total size, so the wrapper's budget is
never exhausted. -/
def processLatexListF : Nat → NodeList → NodeList
  | 0, work => work
  | fuel + 1, work =>
    match work with
    | .nil => .nil
    | .cons .other rest => .cons .other (processLatexListF fuel rest)
    | .cons (.elem t ns a kids) rest =>
      .cons (.elem t ns a (processLatexListF fuel kids)) (processLatexListF fuel rest)
    | .cons (.text d) rest =>
      if goIndexStr d latexStart = -1 then .cons (.text d) (processLatexListF fuel rest)
      else
        let i := (goIndexStr d latexStart).toNat
        let innerStart := i + latexStart.length
        let en := latexEndScan d innerStart
        if en < d.length then
          .cons (.text (d.take i))
            (.cons (.elem (gs "latex") wpNamespace [] (.cons (.text (goSlice d innerStart en)) .nil))
              (processLatexListF fuel (.cons (.text (d.drop (en + 1))) rest)))
        else .cons (.text d) (processLatexListF fuel rest)

/-- `ProcessWpLatex` from shortcode.go, acting on the child list of the
root node: rewrite `$latex ... $` spans, then clean up empty text nodes. -/
def processWpLatexL (kids : NodeList) : NodeList :=
  cleanupList (processLatexListF (nodesSize kids + 1) kids)

/-- The `writer` state from html2markdown.go: verbatim depth, the current
run of trailing linefeeds, the requested run length, the output buffer,
and the indentation-prefix stack (each entry pre-concatenated with its
ancestors, outermost first). -/
structure Writer where
  verbatim : Nat
  lfRunCounter : Nat
  lfRunTarget : Nat
  out : GoStr
  indents : List GoStr
deriving Repr, DecidableEq

/-- A writer with empty output and no pending state. -/
def Writer.empty : Writer := ⟨0, 0, 0, [], []⟩

/-- The unconditional part of `writer.WriteByte`: append the byte; on a
linefeed, count it and (outside verbatim mode) inject the innermost
indent prefix; any other byte resets the linefeed run. -/
def emitChar (w : Writer) (b : Char) : Writer :=
  if b = '\n' then
    let w1 := { w with out := w.out ++ ['\n'], lfRunCounter := w.lfRunCounter + 1 }
    if w1.indents ≠ [] ∧ w1.verbatim = 0 then
      { w1 with out := w1.out ++ w1.indents.getLastD [] }
    else w1
  else { w with out := w.out ++ [b], lfRunCounter := 0 }

/-- The loop of `writer.handleDelayedLf`: write linefeeds until the run
reaches the requested target.  (`WriteByte('\n')` never re-enters the
flush, so the loop body is `emitChar`.)  `fuel` is a step budget; each
step increases the counter, so the wrapper's budget is never exhausted. -/
def handleDelayedLfF : Nat → Writer → Writer
  | 0, w => w
  | fuel + 1, w =>
    if w.lfRunCounter < w.lfRunTarget then handleDelayedLfF fuel (emitChar w '\n')
    else w

/-- `writer.handleDelayedLf`: flush the shortfall of the requested
linefeed run, then reset the request. -/
def handleDelayedLf (w : Writer) : Writer :=
  { handleDelayedLfF (w.lfRunTarget - w.lfRunCounter + 1) w with lfRunTarget := 0 }

/-- `writer.WriteByte`: a pending linefeed request is flushed before any
non-linefeed byte. -/
def writeByte (w : Writer) (b : Char) : Writer :=
  let w1 := if b ≠ '\n' ∧ w.lfRunTarget ≠ 0 then handleDelayedLf w else w
  emitChar w1 b

/-- The raw `out.Write` of a segment inside `writer.Write`: append the
bytes; a non-empty write resets the linefeed run. -/
def rawWrite (w : Writer) (p : GoStr) : Writer :=
  if p ≠ [] then { w with out := w.out ++ p, lfRunCounter := 0 }
  else w

/-- `writer.Write`: split the input at linefeeds; flush the pending run
before each non-empty segment, write the segment raw, and write each
linefeed through `WriteByte` (which injects indentation).  `fuel` is a
step budget; each step strictly shrinks `p`, so the wrapper's budget is
never exhausted. -/
def writeArrF : Nat → Writer → GoStr → Writer
  | 0, w, _ => w
  | fuel + 1, w, p =>
    if goIndex p '\n' = -1 then
      let w1 := if p ≠ [] then handleDelayedLf w else w
      rawWrite w1 p
    else
      let i := (goIndex p '\n').toNat
      let w1 := if i ≠ 0 then handleDelayedLf w else w
      let w2 := rawWrite w1 (p.take i)
      let w3 := writeByte w2 '\n'
      writeArrF fuel w3 (p.drop (i + 1))

/-- `writer.Write` / `writer.WriteString`. -/
def writeArr (w : Writer) (p : GoStr) : Writer := writeArrF (p.length + 1) w p

/-- `writer.EnsureLinefeeds`: the maximum requested run length wins. -/
def ensureLinefeeds (w : Writer) (mn : Nat) : Writer :=
  if mn > w.lfRunTarget then { w with lfRunTarget := mn } else w

/-- `writer.PushIndent`: flush the pending linefeed run, then push the
prefix pre-concatenated with the innermost existing prefix. -/
def pushIndent (w : Writer) (pre : GoStr) : Writer :=
  let w1 := handleDelayedLf w
  let pre2 := match w1.indents.getLast? with
    | some last => last ++ pre
    | none => pre
  { w1 with indents := w1.indents ++ [pre2] }

/-- `writer.PopIndent`: drop the innermost prefix (and nothing else). -/
def popIndent (w : Writer) : Writer := { w with indents := w.indents.dropLast }

/-- The escaped character set `escapedCharsAll` from html2markdown.go. -/
def escapedCharsAll : GoStr := gs "\\`*_\x7b\x7d[]()#+-.!:|&<>$"

/-- Go's `bytes.IndexAny`: first index of a character from `set`, or -1. -/
def goIndexAny (b set : GoStr) : Int :=
  match b.findIdx? (fun c => set.contains c) with
  | some i => (i : Int)
  | none => -1

/-- The escape decision of `markdownEscape` for the matched character
`b[i]` given the previously written character `prev`: escape by default,
except the three "unnecessary and jarring" cases for `.`, `:` and `!`. -/
def escDecision (b : GoStr) (i : Nat) (prev : Char) : Bool :=
  let c := b.getD i ' '
  if c = '.' then
    if '0' < prev ∨ '9' > prev then false else true
  else if c = ':' then
    if b.length < i + 3 ∨ b.getD (i+1) ' ' ≠ '/' ∨ b.getD (i+2) ' ' ≠ '/' then false else true
  else if c = '!' then
    if b.length < i + 2 ∨ b.getD (i+1) ' ' ≠ '!' then false else true
  else true

/-- The loop of `markdownEscape` from html2markdown.go: write up to the
next escapable character, decide whether to backslash-escape it using the
character before it (`last` across chunk boundaries), write it, continue
after it.  `fuel` is a step budget; each step strictly shrinks `b`, so
the wrapper's budget is never exhausted. -/
def mdEscapeF : Nat → Writer → Char → GoStr → GoStr → Writer
  | 0, w, _, _, _ => w
  | fuel + 1, w, last, b, escSet =>
    if goIndexAny b escSet = -1 then writeArr w b
    else
      let i := (goIndexAny b escSet).toNat
      let w1 := writeArr w (b.take i)
      let prev := if i > 0 then b.getD (i-1) ' ' else last
      let w2 := if escDecision b i prev then writeByte w1 '\\' else w1
      let w3 := writeByte w2 (b.getD i ' ')
      mdEscapeF fuel w3 (b.getD i ' ') (b.drop (i + 1)) escSet

/-- `markdownEscape`: escape a text run into the writer (`last` starts as
the zero byte, as in Go). -/
def markdownEscape (w : Writer) (b : GoStr) (escSet : GoStr) : Writer :=
  mdEscapeF (b.length + 1) w (Char.ofNat 0) b escSet

/-- `surround`: prefix, escaped content, suffix. -/
def surround (w : Writer) (pre : GoStr) (what : GoStr) (suf : GoStr) (escSet : GoStr) : Writer :=
  writeArr (markdownEscape (writeArr w pre) what escSet) suf

/-- The child list of a node (empty for non-elements). -/
def nodeChildren : Node → NodeList
  | .elem _ _ _ kids => kids
  | _ => .nil

/-- The attribute list of a node (empty for non-elements). -/
def nodeAttrs : Node → Attrs
  | .elem _ _ a _ => a
  | _ => []

/-- `attr` from html2markdown.go: value of the first attribute with the
given key, or the empty string. -/
def attr (n : Node) (key : GoStr) : GoStr :=
  match (nodeAttrs n).find? (fun kv => kv.1 == key) with
  | some kv => kv.2
  | none => []

/-- `hasAttr` from html2markdown.go. -/
def hasAttr (n : Node) (key : GoStr) : Bool :=
  ((nodeAttrs n).find? (fun kv => kv.1 == key)).isSome

/-- `hasOnlyAllowedAttrs`: every attribute key is in the allow-list. -/
def hasOnlyAllowedAttrs (n : Node) (allowed : List GoStr) : Bool :=
  (nodeAttrs n).all (fun kv => allowed.contains kv.1)

/-- The image attribute allow-list `imgAllowedAttrs`. -/
def imgAllowedAttrs : List GoStr :=
  [gs "src", gs "alt", gs "title", gs "width", gs "height", gs "class", gs "style"]

/-- `containsMarkup`: false exactly when the node has no children or a
single text child. -/
def containsMarkup (n : Node) : Bool :=
  match nodeChildren n with
  | .nil => false
  | .cons (.text _) .nil => false
  | .cons _ .nil => true
  | _ => true

/-- `isSimpleLink`: no markup inside and exactly a single `href` attribute. -/
def isSimpleLink (n : Node) : Bool :=
  !containsMarkup n &&
    (match nodeAttrs n with
     | [kv] => kv.1 == gs "href"
     | _ => false)

/-- Is this a native (non-synthetic) `img` element? -/
def isImgElem : Node → Bool
  | .elem t ns _ _ => t == gs "img" && ns == ([] : GoStr)
  | _ => false

/-- `isImageLink`: a single `href` attribute, exactly one child, which is
an `img` element whose `src` equals the link's `href`. -/
def isImageLink (n : Node) : Bool :=
  (match nodeAttrs n with
   | [kv] => kv.1 == gs "href"
   | _ => false) &&
  (match nodeChildren n with
   | .cons img .nil => isImgElem img && attr n (gs "href") == attr img (gs "src")
   | _ => false)

/-- `leafChildText`: the data of the first child if it is a text node,
the empty string if there are no children, `none` otherwise (a nil byte
slice in Go). -/
def leafChildText (n : Node) : Option GoStr :=
  match nodeChildren n with
  | .nil => some []
  | .cons (.text d) _ => some d
  | _ => none

/-- Go regexp `\s`: the RE2 whitespace class. -/
def reSpace (c : Char) : Bool :=
  c = ' ' || c = '\t' || c = '\n' || c = '\x0c' || c = '\r'

/-- Go regexp `\w`: the RE2 word class (same as the Perl word class). -/
def reWordChar (c : Char) : Bool := isWord c

/-- Does `float:` followed by optional whitespace, `w`, then (per
`star2`) optional whitespace or exactly one whitespace character, then
`;` or end of string, match starting at position `j`?  This is the body
of the `hasFloatLeft`/`hasFloatRight` patterns after their `(\W|^)`
boundary. -/
def floatDeclAt (s : GoStr) (j : Nat) (w : GoStr) (star2 : Bool) : Bool :=
  if goSlice s j (j + 6) = gs "float:" then
    let j1 := scanWhile reSpace s (j + 6)
    if goSlice s j1 (j1 + w.length) = w then
      let j2 := j1 + w.length
      if star2 then
        let j3 := scanWhile reSpace s j2
        decide (j3 = s.length ∨ s.getD j3 ' ' = ';')
      else
        decide (j2 < s.length ∧ reSpace (s.getD j2 ' ') ∧
          (j2 + 1 = s.length ∨ s.getD (j2 + 1) ' ' = ';'))
    else false
  else false

/-- The `hasFloatLeft` pattern `(\W|^)float:\s*left\s*(;|$)`. -/
def hasFloatLeft (s : GoStr) : Bool :=
  floatDeclAt s 0 (gs "left") true ||
    (List.range s.length).any (fun k =>
      !reWordChar (s.getD k ' ') && floatDeclAt s (k + 1) (gs "left") true)

/-- The `hasFloatRight` pattern `(\W|^)float:\s*right\s(;|$)` (note the
single mandatory whitespace after `right`, as in the source). -/
def hasFloatRight (s : GoStr) : Bool :=
  floatDeclAt s 0 (gs "right") false ||
    (List.range s.length).any (fun k =>
      !reWordChar (s.getD k ' ') && floatDeclAt s (k + 1) (gs "right") false)

/-- Go `strings.TrimSpace`. -/
def goTrimSpace (s : GoStr) : GoStr :=
  ((s.dropWhile reSpace).reverse.dropWhile reSpace).reverse

/-- The left brace character (`0x7b`). -/
def lbrace : Char := Char.ofNat 123

/-- The right brace character (`0x7d`). -/
def rbrace : Char := Char.ofNat 125

/-- `handleImage` from html2markdown.go: `false` (with the writer
untouched) when some attribute is outside the allow-list; otherwise emit
`![alt](url)` or `![alt](url "title")`, the url run through the rewrite
callback and float declarations in `style` turned into an annotation
token before the alt text. -/
def handleImage (rw : GoStr → GoStr) (w : Writer) (node : Node) : Writer × Bool :=
  if ¬ hasOnlyAllowedAttrs node imgAllowedAttrs then (w, false)
  else
    let url := rw (attr node (gs "src"))
    let alt := attr node (gs "alt")
    let title := attr node (gs "title")
    let style := attr node (gs "style")
    let outAttrs : GoStr :=
      (if style ≠ [] ∧ hasFloatLeft style then gs " floatleft" else []) ++
      (if style ≠ [] ∧ hasFloatRight style then gs " floatright" else [])
    let alt2 := if outAttrs ≠ [] then lbrace :: (goTrimSpace outAttrs ++ rbrace :: alt) else alt
    let w1 := surround w (gs "![") alt2 (gs "]") (gs "[]")
    if title = [] then
      (surround w1 (gs "(") url (gs ")") (gs "()"), true)
    else
      let w2 := surround w1 (gs "(") url (gs " ") (gs "\"()")
      (surround w2 (gs "\"") title (gs "\")") (gs "\""), true)

/-- The first child of a node (only used where the caller has checked it
exists). -/
def nodeFirstChild (n : Node) : Node :=
  match nodeChildren n with
  | .cons c _ => c
  | .nil => .other

/-- The fallback of `renderElement`: serialize the node with the external
tree renderer (`html.Render`, modelled as the parameter `hr`), writing
through the writer with the verbatim counter raised. -/
def verbatimFallback (hr : Node → GoStr) (w : Writer) (n : Node) : Writer :=
  let w1 := { w with verbatim := w.verbatim + 1 }
  let w2 := writeArr w1 (hr n)
  { w2 with verbatim := w2.verbatim - 1 }

/-- The `atom.A` arm of `renderElement` (html2markdown.go) together with
its fall-through to the verbatim fallback: a simple link renders as
`[text](url)`; a link whose sole child is an image with matching
`src`/`href` renders through `handleImage`; anything else falls back to
the external serialization. -/
def renderAElem (rw : GoStr → GoStr) (hr : Node → GoStr) (w : Writer) (n : Node) : Writer :=
  if isSimpleLink n then
    let text := (leafChildText n).getD []
    let href := rw (attr n (gs "href"))
    let w1 := surround w (gs "[") text (gs "]") (gs "[]")
    surround w1 (gs "(") href (gs ")") (gs "()")
  else if isImageLink n then
    let r := handleImage rw w (nodeFirstChild n)
    if r.2 then r.1 else verbatimFallback hr w n
  else verbatimFallback hr w n

/-- The `atom.Img` arm of `renderElement` together with its fall-through
to the verbatim fallback. -/
def renderImgElem (rw : GoStr → GoStr) (hr : Node → GoStr) (w : Writer) (n : Node) : Writer :=
  let r := handleImage rw w n
  if r.2 then r.1 else verbatimFallback hr w n

/-- What one flushed linefeed writes: the linefeed itself, followed by
the innermost indent prefix outside verbatim mode. -/
def lfChunk (w : Writer) : GoStr :=
  '\n' :: (if w.indents ≠ [] ∧ w.verbatim = 0 then w.indents.getLastD [] else [])

/-- Characterization of a span body through which the terminator scan of
`processLatexTextNode` passes cleanly and stops right after it: no
unconsumed `$`, and no backslash left to consume the terminator. -/
def cleanInner : GoStr → Bool
  | [] => true
  | c :: rest =>
    if c = '$' then false
    else if c = '\\' then
      match rest with
      | [] => false
      | _ :: rest2 => cleanInner rest2
    else cleanInner rest

/-- Characterization of a span body in which the terminator scan of
`processLatexTextNode` finds no terminating `$` (it runs off the end). -/
def noTerm : GoStr → Bool
  | [] => true
  | c :: rest =>
    if c = '$' then false
    else if c = '\\' then
      match rest with
      | [] => true
      | _ :: rest2 => noTerm rest2
    else noTerm rest

mutual

/-- The hypothesis of C9, amended: a text node is nonempty, contains no
opening bracket and no occurrence of the latex marker; an element is
checked recursively; other node kinds carry no text. -/
def markupFreeNode : Node → Bool
  | .text d => decide (d ≠ []) && decide ('[' ∉ d) && decide (goIndexStr d latexStart = -1)
  | .elem _ _ _ kids => markupFreeList kids
  | .other => true

/-- The C9 hypothesis on a sibling list. -/
def markupFreeList : NodeList → Bool
  | .nil => true
  | .cons n rest => markupFreeNode n && markupFreeList rest

end

/-- A sibling list laid out as already-final slots. -/
def plainList : NodeList → List Slot
  | .nil => []
  | .cons n rest => .plain n :: plainList rest

/-- The C3 safety condition on a text: no doubled opening bracket
(no occurrence of the two-character window that starts an escape). -/
def noBB (d : GoStr) : Prop :=
  ∀ j < d.length, ¬(d.getD j ' ' = '[' ∧ d.getD (j + 1) ' ' = '[')

/-- The companion C3 safety condition: no window spelling a bracket, a
slash and another bracket (which would strand a candidate whose name
scan dies at the right edge on a re-run). -/
def noBSB (d : GoStr) : Prop :=
  ∀ j < d.length,
    ¬(d.getD j ' ' = '[' ∧ d.getD (j + 1) ' ' = '/' ∧ d.getD (j + 2) ' ' = '[')

instance noBB_dec (d : GoStr) : Decidable (noBB d) :=
  inferInstanceAs (Decidable (∀ j < d.length,
    ¬(d.getD j ' ' = '[' ∧ d.getD (j + 1) ' ' = '[')))

instance noBSB_dec (d : GoStr) : Decidable (noBSB d) :=
  inferInstanceAs (Decidable (∀ j < d.length,
    ¬(d.getD j ' ' = '[' ∧ d.getD (j + 1) ' ' = '/' ∧ d.getD (j + 2) ' ' = '[')))

mutual

/-- The C3 hypothesis on one input node: every text is safe (no doubled
bracket and no bracket-slash-bracket window), recursively. -/
def safeNode : Node → Bool
  | .text d => decide (noBB d) && decide (noBSB d)
  | .elem _ _ _ kids => safeList kids
  | .other => true

/-- The C3 hypothesis on a sibling list. -/
def safeList : NodeList → Bool
  | .nil => true
  | .cons n rest => safeNode n && safeList rest

end

mutual

/-- An output node the shortcode scan leaves alone: re-scanning each of
its texts finds nothing and changes nothing. -/
def inertNode : Node → Bool
  | .text d => decide (scanText d = .noTag d)
  | .elem _ _ _ kids => inertList kids
  | .other => true

/-- Inertness of a sibling list. -/
def inertList : NodeList → Bool
  | .nil => true
  | .cons n rest => inertNode n && inertList rest

end

/-- Inertness of one produced slot. -/
def slotInert : Slot → Bool
  | .plain n => inertNode n
  | .created _ _ kids => inertList kids

/-- Inertness of the produced slots of a parent. -/
def slotsInert (slots : List Slot) : Bool := slots.all slotInert

theorem scanWhileL_le_length (p : Char → Bool) (s : GoStr) : scanWhileL p s ≤ s.length := by
  induction s with
  | nil => simp [scanWhileL]
  | cons c rest ih =>
    simp only [scanWhileL, List.length_cons]
    split <;> omega

theorem scanWhileL_stop (p : Char → Bool) (s : GoStr) (h : scanWhileL p s < s.length) :
    p (s.getD (scanWhileL p s) ' ') = false := by
  induction s with
  | nil => simp at h
  | cons c rest ih =>
    by_cases hp : p c
    · simp only [scanWhileL, if_pos hp] at h ⊢
      simpa using ih (by simpa using h)
    · simp [scanWhileL, hp]

theorem le_scanWhile (p : Char → Bool) (s : GoStr) (i : Nat) : i ≤ scanWhile p s i :=
  Nat.le_add_right _ _

theorem scanWhile_le (p : Char → Bool) (s : GoStr) (i : Nat) (h : i ≤ s.length) :
    scanWhile p s i ≤ s.length := by
  have h1 := scanWhileL_le_length p (s.drop i)
  simp only [scanWhile]
  simp only [List.length_drop] at h1
  omega

theorem scanWhile_stop (p : Char → Bool) (s : GoStr) (i : Nat)
    (h : scanWhile p s i < s.length) : p (s.getD (scanWhile p s i) ' ') = false := by
  have h1 : scanWhileL p (s.drop i) < (s.drop i).length := by
    simp only [List.length_drop]
    simp only [scanWhile] at h
    omega
  have h2 := scanWhileL_stop p (s.drop i) h1
  have h3 : (s.drop i).getD (scanWhileL p (s.drop i)) ' ' =
      s.getD (i + scanWhileL p (s.drop i)) ' ' := by
    simp [List.getD_eq_getElem?_getD, List.getElem?_drop]
  rw [h3] at h2
  simpa [scanWhile] using h2

theorem scanWhile_advance (p : Char → Bool) (s : GoStr) (i : Nat)
    (h : i < s.length) (hp : p (s.getD i ' ') = true) : i + 1 ≤ scanWhile p s i := by
  have hd : s.drop i = s.getD i ' ' :: s.drop (i + 1) := by
    rw [List.drop_eq_getElem_cons h]
    simp [List.getD_eq_getElem?_getD, List.getElem?_eq_getElem h]
  simp only [scanWhile, hd, scanWhileL, hp, if_true]
  omega

example : parseShortcode (gs "caption]b") = .ok ⟨8, 1, gs "caption", []⟩ := by decide

example : parseShortcode (gs "/caption]d") = .ok ⟨9, 2, gs "caption", []⟩ := by decide

example : parseShortcode (gs "caption/]b") = .ok ⟨9, 3, gs "caption", []⟩ := by decide

example : parseShortcode (gs "[caption]]b") = .ok ⟨10, 0, [], gs "[caption]"⟩ := by decide

example : parseShortcode (gs "[/caption]]c") = .ok ⟨11, 0, [], gs "[/caption]"⟩ := by decide

example : parseShortcode (gs "other]c") = .ok ⟨0, 1, gs "other", []⟩ := by decide

example : parseShortcode [] = .panicked := by decide

example : parseShortcode (gs "[") = .panicked := by decide

example : parseShortcode (gs "/") = .panicked := by decide

theorem attrKeyValue_pos_lt (attrs : GoStr) (pos : Nat) (v : GoStr) (newPos : Nat)
    (h : attrKeyValue attrs pos = some (v, newPos)) : pos < newPos := by
  have h1 := le_scanWhile isWord attrs pos
  have h2 := le_scanWhile isSpace attrs (scanWhile isWord attrs pos)
  have h3 := le_scanWhile isSpace attrs (scanWhile isSpace attrs (scanWhile isWord attrs pos) + 1)
  have h4 := le_scanWhile (fun c => !isSpace c && c ≠ '"' && c ≠ '\'') attrs
    (scanWhile isSpace attrs (scanWhile isSpace attrs (scanWhile isWord attrs pos) + 1))
  simp only [attrKeyValue] at h
  repeat' split at h
  all_goals simp_all
  all_goals omega

theorem attrIndexed_pos_lt (attrs : GoStr) (pos : Nat) (h : pos < attrs.length)
    (hns : isSpace (attrs.getD pos ' ') = false) : pos < (attrIndexed attrs pos).2 := by
  have hfb : pos < scanWhile (fun c => !isSpace c) attrs pos := by
    have := scanWhile_advance (fun c => !isSpace c) attrs pos h
      (by simp only [Bool.not_eq_true']; exact hns)
    omega
  simp only [attrIndexed]
  repeat' split
  all_goals simp_all
  all_goals omega

/-- The wrapper's budget in `parseAttrs` is sufficient: any budget larger
than the remaining string gives the same result. -/
theorem parseAttrsF_irrel (attrs : GoStr) (keyIdx pos0 f1 f2 : Nat)
    (h1 : attrs.length - pos0 < f1) (h2 : attrs.length - pos0 < f2) :
    parseAttrsF attrs keyIdx pos0 f1 = parseAttrsF attrs keyIdx pos0 f2 := by
  induction f1 generalizing keyIdx pos0 f2 with
  | zero => omega
  | succ f1 ih =>
    match f2, h2 with
    | f2 + 1, h2 =>
      simp only [parseAttrsF]
      by_cases h0 : pos0 < attrs.length
      · simp only [if_pos h0]
        have hsp := le_scanWhile isSpace attrs pos0
        by_cases hp : attrs.length ≤ scanWhile isSpace attrs pos0
        · simp only [if_pos hp]
        · simp only [if_neg hp]
          cases hkv : attrKeyValue attrs (scanWhile isSpace attrs pos0) with
          | some r =>
            obtain ⟨v, newPos⟩ := r
            have := attrKeyValue_pos_lt attrs _ v newPos hkv
            simp only [ih keyIdx newPos f2 (by omega) (by omega)]
          | none =>
            have := attrIndexed_pos_lt attrs (scanWhile isSpace attrs pos0) (by omega)
              (scanWhile_stop isSpace attrs pos0 (by omega))
            simp only [ih (keyIdx + 1) (attrIndexed attrs (scanWhile isSpace attrs pos0)).2 f2
              (by omega) (by omega)]
      · simp only [if_neg h0]

example : parseAttrs (gs " id=\"x\" width=10") =
    [(gs "id", gs "x"), (gs "width", gs "10")] := by decide

example : parseAttrs (gs "b \"c\" d=\"'\" e='\"' f=g'hi") =
    [(gs "@0", gs "b"), (gs "@1", gs "c"), (gs "d", gs "'"), (gs "e", gs "\""),
     (gs "f", gs "g"), (gs "@2", gs "'hi")] := by decide

example : scanText (gs "a[[caption]]b") = .noTag (gs "a[caption]b") := by decide

example : scanText (gs "ab") = .noTag (gs "ab") := by decide

example : scanText (gs "a[caption]b") =
    .tagFound (gs "a") 1 (gs "caption") [] (gs "b") := by decide

example : scanText (gs "a[") = .panicked := by decide

theorem goSlice_ne_nil (text : GoStr) (a b : Nat) (hab : a < b) (ha : a < text.length) :
    goSlice text a b ≠ [] := by
  simp only [goSlice, ne_eq, List.take_eq_nil_iff, List.drop_eq_nil_iff]
  omega

theorem goSlice_length_le (text : GoStr) (a b : Nat) : (goSlice text a b).length ≤ b - a := by
  simp only [goSlice, List.length_take, List.length_drop]
  omega

theorem scPos_lt_scNameEnd (text : GoStr) : scPos text < scNameEnd text := by
  have := le_scanWhile isShortname text (scPos text + 1)
  simp only [scNameEnd]
  omega

theorem scTag_ne_nil (text : GoStr) (h : scNameEnd text ≤ text.length) :
    scTag text ≠ [] := by
  have h1 := scPos_lt_scNameEnd text
  exact goSlice_ne_nil text _ _ h1 (by omega)

/-- An escape result of `parseShortcode` replaces strictly more characters
than it inserts, and stays within the scanned string. -/
theorem parseShortcode_escape_bounds (text : GoStr) (r : ShortcodeParse)
    (h : parseShortcode text = .ok r) (htag : r.tag = []) (hsz : r.size ≠ 0) :
    r.rest.length < r.size ∧ r.size ≤ text.length := by
  simp only [parseShortcode] at h
  split at h
  · exact absurd h (by simp)
  · rename_i hlen
    repeat' split at h
    all_goals cases h
    all_goals dsimp only at htag hsz ⊢
    all_goals try simp at hsz
    all_goals try exact absurd htag (scTag_ne_nil text (by omega))
    all_goals
      rename_i hesc
      obtain ⟨-, -, hlt, -⟩ := hesc
      have hrl := goSlice_length_le text 0 ((goIndex text ']').toNat + 1)
      exact ⟨by omega, by omega⟩

/-- The wrapper's budget in `scanText` is sufficient: any budget larger
than the remaining text gives the same scan result. -/
theorem scanFromF_irrel (f1 : Nat) (data : GoStr) (i f2 : Nat)
    (h1 : data.length - i < f1) (h2 : data.length - i < f2) :
    scanFromF f1 data i = scanFromF f2 data i := by
  induction f1 generalizing data i f2 with
  | zero => omega
  | succ f1 ih =>
    match f2, h2 with
    | f2 + 1, h2 =>
      simp only [scanFromF]
      by_cases hi : i < data.length
      · simp only [if_pos hi]
        by_cases hc : data.getD i ' ' = '['
        · simp only [if_pos hc]
          cases hps : parseShortcode (data.drop (i + 1)) with
          | panicked => rfl
          | ok r =>
            by_cases hsz : r.size ≠ 0
            · simp only [if_pos hsz]
              by_cases htg : r.tag = []
              · simp only [if_pos htg]
                have hlen : (data.take i ++ r.rest ++ data.drop (i + 1 + r.size)).length =
                    min i data.length + (r.rest.length + (data.length - (i + 1 + r.size))) := by
                  simp
                exact ih _ _ f2 (by omega) (by omega)
              · simp only [if_neg htg]
            · simp only [if_neg hsz]
              exact ih _ _ f2 (by omega) (by omega)
        · simp only [if_neg hc]
          exact ih _ _ f2 (by omega) (by omega)
      · simp only [if_neg hi]

/-- When the scan finds a real tag, the text after the tag is strictly
shorter than the scanned text (the tag's characters are consumed). -/
theorem scanFromF_suffix_lt (fuel : Nat) (data : GoStr) (i : Nat)
    (pre : GoStr) (oc : Nat) (tg r suffix : GoStr)
    (h : scanFromF fuel data i = .tagFound pre oc tg r suffix)
    (hf : data.length - i < fuel) : suffix.length < data.length := by
  induction fuel generalizing data i with
  | zero => omega
  | succ fuel ih =>
    simp only [scanFromF] at h
    by_cases hi : i < data.length
    · simp only [if_pos hi] at h
      by_cases hc : data.getD i ' ' = '['
      · simp only [if_pos hc] at h
        cases hps : parseShortcode (data.drop (i + 1)) with
        | panicked => simp [hps] at h
        | ok rr =>
          rw [hps] at h
          by_cases hsz : rr.size ≠ 0
          · simp only [if_pos hsz] at h
            by_cases htg : rr.tag = []
            · simp only [if_pos htg] at h
              have hb := parseShortcode_escape_bounds _ rr hps htg hsz
              have hlen : (data.take i ++ rr.rest ++ data.drop (i + 1 + rr.size)).length =
                  min i data.length + (rr.rest.length + (data.length - (i + 1 + rr.size))) := by
                simp
              have := ih _ _ h (by omega)
              simp only [List.length_drop] at hb
              omega
            · simp only [if_neg htg] at h
              cases h
              simp only [List.length_drop]
              omega
          · simp only [if_neg hsz] at h
            exact ih _ _ h (by omega)
      · simp only [if_neg hc] at h
        exact ih _ _ h (by omega)
    · simp only [if_neg hi] at h
      simp at h

/-- When the scan of a text node finds a real tag, the remaining text is
strictly shorter than the node's data. -/
theorem scanText_suffix_lt (d : GoStr) (pre : GoStr) (oc : Nat) (tg r suffix : GoStr)
    (h : scanText d = .tagFound pre oc tg r suffix) : suffix.length < d.length :=
  scanFromF_suffix_lt (d.length + 1) d 0 pre oc tg r suffix h (by omega)

/-- The wrapper's budget in `processShortcodesL` is sufficient: any budget
larger than the total work size gives the same result. -/
theorem procChildrenF_irrel (f1 : Nat) (work : NodeList) (slots : List Slot)
    (stack : List Frame) (f2 : Nat) (h1 : nodesSize work < f1) (h2 : nodesSize work < f2) :
    procChildrenF f1 work slots stack = procChildrenF f2 work slots stack := by
  induction f1 generalizing work slots stack f2 with
  | zero => omega
  | succ f1 ih =>
    match f2, h2 with
    | f2 + 1, h2 =>
      simp only [procChildrenF]
      match work with
      | .nil => rfl
      | .cons .other rest =>
        dsimp only
        simp only [nodesSize, nodeSize] at h1 h2
        exact ih rest _ _ f2 (by omega) (by omega)
      | .cons (.elem t ns a kids) rest =>
        dsimp only
        simp only [nodesSize, nodeSize] at h1 h2
        rw [ih kids [] [] f2 (by omega) (by omega)]
        cases procChildrenF f2 kids [] [] with
        | ok inner => exact ih rest _ _ f2 (by omega) (by omega)
        | err m => rfl
        | panicked => rfl
      | .cons (.text d) rest =>
        dsimp only
        simp only [nodesSize, nodeSize] at h1 h2
        cases hs : scanText d with
        | panicked => simp only [hs]
        | noTag d2 =>
          simp only [hs]
          exact ih rest _ _ f2 (by omega) (by omega)
        | tagFound pre oc tg restAttrs suffix =>
          simp only [hs]
          have hsl := scanText_suffix_lt d pre oc tg restAttrs suffix hs
          by_cases hcl : oc &&& tagClose ≠ 0
          · simp only [if_pos hcl]
            by_cases hop : oc &&& tagOpen ≠ 0
            · simp only [if_pos hop]
              simp only [if_neg (show ¬(tg ≠ tg) by simp)]
              exact ih (.cons (.text suffix) rest) _ _ f2
                (by simp only [nodesSize, nodeSize]; omega)
                (by simp only [nodesSize, nodeSize]; omega)
            · simp only [if_neg hop]
              cases stack with
              | nil => rfl
              | cons f fs =>
                dsimp only
                by_cases hm : f.tag ≠ tg
                · simp only [if_pos hm]
                · simp only [if_neg hm]
                  exact ih (.cons (.text suffix) rest) _ _ f2
                    (by simp only [nodesSize, nodeSize]; omega)
                    (by simp only [nodesSize, nodeSize]; omega)
          · simp only [if_neg hcl]
            exact ih (.cons (.text suffix) rest) _ _ f2
              (by simp only [nodesSize, nodeSize]; omega)
              (by simp only [nodesSize, nodeSize]; omega)

/-- The wrapper's budget in `processWpLatexL` is sufficient. -/
theorem processLatexListF_irrel (f1 : Nat) (work : NodeList) (f2 : Nat)
    (h1 : nodesSize work < f1) (h2 : nodesSize work < f2) :
    processLatexListF f1 work = processLatexListF f2 work := by
  induction f1 generalizing work f2 with
  | zero => omega
  | succ f1 ih =>
    match f2, h2 with
    | f2 + 1, h2 =>
      simp only [processLatexListF]
      match work with
      | .nil => rfl
      | .cons .other rest =>
        dsimp only
        simp only [nodesSize, nodeSize] at h1 h2
        rw [ih rest f2 (by omega) (by omega)]
      | .cons (.elem t ns a kids) rest =>
        dsimp only
        simp only [nodesSize, nodeSize] at h1 h2
        rw [ih kids f2 (by omega) (by omega), ih rest f2 (by omega) (by omega)]
      | .cons (.text d) rest =>
        dsimp only
        simp only [nodesSize, nodeSize] at h1 h2
        by_cases hm : goIndexStr d latexStart = -1
        · simp only [if_pos hm]
          rw [ih rest f2 (by omega) (by omega)]
        · simp only [if_neg hm]
          by_cases he : latexEndScan d ((goIndexStr d latexStart).toNat + latexStart.length) < d.length
          · simp only [if_pos he]
            rw [ih _ f2 (by simp only [nodesSize, nodeSize]; simp; omega)
              (by simp only [nodesSize, nodeSize]; simp; omega)]
          · simp only [if_neg he]
            rw [ih rest f2 (by omega) (by omega)]

-- The `TestShortcode` vectors from the repository's test suite, checked
-- against the embedding.
example : processShortcodesL (nl []) = .ok (nl []) := by decide

example : processShortcodesL (nl [.text (gs "a[caption]b[/caption]c")]) =
    .ok (nl [.text (gs "a"),
             .elem (gs "caption") wpNamespace [] (nl [.text (gs "b")]),
             .text (gs "c")]) := by decide

example : processShortcodesL (nl [.text (gs "a[caption/]b")]) =
    .ok (nl [.text (gs "a"),
             .elem (gs "caption") wpNamespace [] (nl []),
             .text (gs "b")]) := by decide

example : processShortcodesL (nl [.text (gs "a[caption]b[latex]c[/caption]d[/latex]e")]) =
    .err (mismatchMsg (gs "caption") (gs "latex")) := by decide

example : processShortcodesL (nl [.text (gs "a[caption id=\"b\" align='c' width=d]e[/caption]f")]) =
    .ok (nl [.text (gs "a"),
             .elem (gs "caption") wpNamespace
               [(gs "id", gs "b"), (gs "align", gs "c"), (gs "width", gs "d")]
               (nl [.text (gs "e")]),
             .text (gs "f")]) := by decide

example : processShortcodesL (nl [.text (gs "a[caption b \"c\" d=\"'\" e='\"' f=g'hi/]j")]) =
    .ok (nl [.text (gs "a"),
             .elem (gs "caption") wpNamespace
               [(gs "@0", gs "b"), (gs "@1", gs "c"), (gs "d", gs "'"), (gs "e", gs "\""),
                (gs "f", gs "g"), (gs "@2", gs "'hi")]
               (nl []),
             .text (gs "j")]) := by decide

example : processShortcodesL (nl [.text (gs "a[[caption]]b")]) =
    .ok (nl [.text (gs "a[caption]b")]) := by decide

example : processShortcodesL (nl [.text (gs "a[thistagisnotdefined]b")]) =
    .ok (nl [.text (gs "a[thistagisnotdefined]b")]) := by decide

example : processShortcodesL (nl [.text (gs "a[[thistagisnotdefined]]b")]) =
    .ok (nl [.text (gs "a[[thistagisnotdefined]]b")]) := by decide

-- The `TestLatex` vectors from the repository's test suite.
example : processWpLatexL (nl []) = nl [] := by decide

example : processWpLatexL (nl [.text (gs "a$latex 1+2$b")]) =
    nl [.text (gs "a"),
        .elem (gs "latex") wpNamespace [] (nl [.text (gs "1+2")]),
        .text (gs "b")] := by decide

example : processWpLatexL (nl [.text (gs "a $latexb")]) =
    nl [.text (gs "a $latexb")] := by decide

example : processWpLatexL (nl [.text (gs "a $latex b")]) =
    nl [.text (gs "a $latex b")] := by decide

example : processWpLatexL (nl [.text (gs "a $latex b$ c $latex d")]) =
    nl [.text (gs "a "),
        .elem (gs "latex") wpNamespace [] (nl [.text (gs "b")]),
        .text (gs " c $latex d")] := by decide

example : processWpLatexL (nl [.text (gs "a $latex b$ c $latex d$")]) =
    nl [.text (gs "a "),
        .elem (gs "latex") wpNamespace [] (nl [.text (gs "b")]),
        .text (gs " c "),
        .elem (gs "latex") wpNamespace [] (nl [.text (gs "d")])] := by decide

example : (markdownEscape Writer.empty (gs "a*b") escapedCharsAll).out = gs "a\\*b" := by decide

example : (markdownEscape Writer.empty (gs "a.b") escapedCharsAll).out = gs "a.b" := by decide

theorem emitChar_lf (w : Writer) :
    emitChar w '\n' = { w with out := w.out ++ lfChunk w, lfRunCounter := w.lfRunCounter + 1 } := by
  simp only [emitChar, lfChunk]
  rw [if_pos trivial]
  by_cases hc : w.indents ≠ [] ∧ w.verbatim = 0
  · rw [if_pos hc, if_pos hc, List.append_assoc, List.singleton_append]
  · rw [if_neg hc, if_neg hc]

/-- `handleDelayedLf` writes exactly the shortfall of the requested
linefeed run, each linefeed followed by the current indent prefix. -/
theorem handleDelayedLfF_spec (fuel : Nat) (w : Writer)
    (h : w.lfRunTarget - w.lfRunCounter < fuel) :
    handleDelayedLfF fuel w =
      { w with out := w.out ++ (List.replicate (w.lfRunTarget - w.lfRunCounter) (lfChunk w)).flatten,
               lfRunCounter := max w.lfRunCounter w.lfRunTarget } := by
  induction fuel generalizing w with
  | zero => omega
  | succ fuel ih =>
    simp only [handleDelayedLfF]
    by_cases hlt : w.lfRunCounter < w.lfRunTarget
    · rw [if_pos hlt, emitChar_lf, ih _ (by dsimp only; omega)]
      dsimp only
      have h2 : max (w.lfRunCounter + 1) w.lfRunTarget = max w.lfRunCounter w.lfRunTarget := by
        omega
      have hch : lfChunk { w with out := w.out ++ lfChunk w, lfRunCounter := w.lfRunCounter + 1 } =
          lfChunk w := rfl
      have hout : (w.out ++ lfChunk w) ++
          (List.replicate (w.lfRunTarget - (w.lfRunCounter + 1)) (lfChunk w)).flatten =
          w.out ++ (List.replicate (w.lfRunTarget - w.lfRunCounter) (lfChunk w)).flatten := by
        have hn : w.lfRunTarget - w.lfRunCounter = (w.lfRunTarget - (w.lfRunCounter + 1)) + 1 := by
          omega
        rw [hn, List.append_assoc, ← List.flatten_cons, ← List.replicate_succ]
      rw [hch, hout, h2]
    · rw [if_neg hlt]
      have h1 : w.lfRunTarget - w.lfRunCounter = 0 := by omega
      have h2 : max w.lfRunCounter w.lfRunTarget = w.lfRunCounter := by omega
      rw [h1, h2]
      simp

theorem handleDelayedLf_spec (w : Writer) :
    handleDelayedLf w =
      { w with out := w.out ++ (List.replicate (w.lfRunTarget - w.lfRunCounter) (lfChunk w)).flatten,
               lfRunCounter := max w.lfRunCounter w.lfRunTarget,
               lfRunTarget := 0 } := by
  simp only [handleDelayedLf]
  rw [handleDelayedLfF_spec _ _ (by omega)]

/-- C1: a closing shortcode tag of a registered block tag with an empty
open-tag stack does not produce the StructuralError the code constructs
for it — the missing `return` lets `tags[:l-1]` run on an empty slice,
and the whole operation panics instead of returning the error. -/
theorem claim_C1_close_empty_stack_panics :
    processShortcodesL (nl [.text (gs "[/caption]")]) = .panicked ∧
    processShortcodesL (nl [.text (gs "a[/caption]b")]) = .panicked ∧
    processShortcodesL (nl [.text (gs "x[/latex]y")]) = .panicked := by
  refine ⟨by decide, by decide, by decide⟩

/-- C2: in the Renderer's text escaping, a `.` is never backslash-escaped,
even immediately after a digit: the guard `'0' < prev || '9' > prev` is
true for every byte, so `markdownEscape` leaves `"1."` unescaped (the
claim and the code's own comment expect `"1\\."`); a `.` not after a
digit is indeed left unescaped. -/
theorem claim_C2_dot_never_escaped :
    (markdownEscape Writer.empty (gs "1.") escapedCharsAll).out = gs "1." ∧
    (markdownEscape Writer.empty (gs "a.") escapedCharsAll).out = gs "a." ∧
    ∀ (b : GoStr) (i : Nat) (prev : Char), b.getD i ' ' = '.' →
      escDecision b i prev = false := by
  refine ⟨by decide, by decide, ?_⟩
  intro b i prev h
  have hcond : '0' < prev ∨ '9' > prev := by
    rcases lt_or_le '0' prev with h0 | h0
    · exact Or.inl h0
    · exact Or.inr (lt_of_le_of_lt h0 (by decide))
  simp only [escDecision]
  rw [h, if_pos rfl, if_pos hcond]

/-- Witness for C2's universally quantified part at a concrete input. -/
theorem claim_C2_dot_never_escaped_witness :
    List.getD (gs "1.") 1 ' ' = '.' ∧ escDecision (gs "1.") 1 (Char.ofNat 0) = false :=
  ⟨by decide, claim_C2_dot_never_escaped.2.2 (gs "1.") 1 (Char.ofNat 0) (by decide)⟩

/-- C10: the Tag Lexer is not total — for a `[` that is the final
character of a text node, the string handed to `parseShortcode` is empty
and the slice `text[namestart:nameend]` reads past the end, panicking
instead of returning consumed length 0. -/
theorem claim_C10_trailing_bracket_panics :
    parseShortcode [] = .panicked ∧
    processShortcodesL (nl [.text (gs "a[")]) = .panicked ∧
    processShortcodesL (nl [.text (gs "[")]) = .panicked := by
  refine ⟨by decide, by decide, by decide⟩

/-- C4 counterexample: the input `[caption]b[other]c[/caption]d[/other]`
cited by the claim does not fail — `other` is unregistered, so `[other]`
and `[/other]` are left as literal text and the caption closes
normally — contradicting "fails with a StructuralError". -/
theorem claim_C4_counterexample :
    processShortcodesL (nl [.text (gs "[caption]b[other]c[/caption]d[/other]")]) =
      .ok (nl [.elem (gs "caption") wpNamespace [] (nl [.text (gs "b[other]c")]),
               .text (gs "d[/other]")]) ∧
    ∀ m, processShortcodesL (nl [.text (gs "[caption]b[other]c[/caption]d[/other]")]) ≠
      .err m := by
  have h1 : processShortcodesL (nl [.text (gs "[caption]b[other]c[/caption]d[/other]")]) =
      .ok (nl [.elem (gs "caption") wpNamespace [] (nl [.text (gs "b[other]c")]),
               .text (gs "d[/other]")]) := by decide
  exact ⟨h1, fun m hm => by rw [h1] at hm; exact Outcome.noConfusion hm⟩

/-- C4 (amended): a closing tag of a registered shortcode that does not
match the innermost open shortcode makes the processor return a
StructuralError naming the unexpected closer and the still-open tag —
it never silently closes the wrong tag; e.g. the registered-tag variant
`[caption]b[latex]c[/caption]d[/latex]e` fails exactly so. -/
theorem claim_C4_mismatch_error :
    (∀ (fuel : Nat) (d pre : GoStr) (oc : Nat) (tg restA suffix : GoStr) (rest : NodeList)
       (slots : List Slot) (f : Frame) (fs : List Frame),
       scanText d = .tagFound pre oc tg restA suffix →
       oc &&& tagOpen = 0 → oc &&& tagClose ≠ 0 → f.tag ≠ tg →
       procChildrenF (fuel + 1) (.cons (.text d) rest) slots (f :: fs) =
         .err (mismatchMsg tg f.tag)) ∧
    processShortcodesL (nl [.text (gs "[caption]b[latex]c[/caption]d[/latex]e")]) =
      .err (mismatchMsg (gs "caption") (gs "latex")) := by
  constructor
  · intro fuel d pre oc tg restA suffix rest slots f fs hscan hop hcl hne
    simp only [procChildrenF, hscan]
    rw [if_pos hcl, if_neg (show ¬(oc &&& tagOpen ≠ 0) by simp [hop])]
    dsimp only
    rw [if_pos hne]
  · decide

/-- Witness for C4's universally quantified part at a concrete input. -/
theorem claim_C4_mismatch_error_witness :
    procChildrenF 1 (.cons (.text (gs "[/latex]x")) .nil) []
        [⟨gs "caption", 0⟩] = .err (mismatchMsg (gs "latex") (gs "caption")) :=
  claim_C4_mismatch_error.1 0 (gs "[/latex]x") [] 2 (gs "latex") [] (gs "x") .nil []
    ⟨gs "caption", 0⟩ [] (by decide) (by decide) (by decide) (by decide)

/-- C7 counterexample: at a writer state with a pending two-linefeed
request and a pushed prefix, `PopIndent` changes the indentation stack
without emitting the shortfall and without resetting the request — the
pending run survives the pop. -/
theorem claim_C7_counterexample :
    (popIndent ⟨0, 0, 2, gs "x", [gs "I"]⟩).indents ≠
      (⟨0, 0, 2, gs "x", [gs "I"]⟩ : Writer).indents ∧
    (popIndent ⟨0, 0, 2, gs "x", [gs "I"]⟩).out = gs "x" ∧
    (popIndent ⟨0, 0, 2, gs "x", [gs "I"]⟩).lfRunTarget = 2 ∧
    (popIndent ⟨0, 0, 2, gs "x", [gs "I"]⟩).lfRunCounter = 0 := by
  refine ⟨by decide, by decide, by decide, by decide⟩

/-- C7 (amended): `PushIndent` flushes the pending linefeed run before
the stack changes (the shortfall is written, each linefeed followed by
the current prefix, and the request resets); `PopIndent` pops the stack
without flushing — the pending request and the output are untouched. -/
theorem claim_C7_push_pop_flush :
    ∀ (w : Writer) (p : GoStr),
      (pushIndent w p).out =
        w.out ++ (List.replicate (w.lfRunTarget - w.lfRunCounter) (lfChunk w)).flatten ∧
      (pushIndent w p).lfRunTarget = 0 ∧
      (pushIndent w p).indents = w.indents ++ [w.indents.getLastD [] ++ p] ∧
      (popIndent w).out = w.out ∧
      (popIndent w).lfRunTarget = w.lfRunTarget ∧
      (popIndent w).lfRunCounter = w.lfRunCounter ∧
      (popIndent w).indents = w.indents.dropLast := by
  intro w p
  refine ⟨?_, ?_, ?_, rfl, rfl, rfl, rfl⟩
  · simp only [pushIndent, handleDelayedLf_spec]
  · simp only [pushIndent, handleDelayedLf_spec]
  · simp only [pushIndent, handleDelayedLf_spec]
    rw [List.getLastD_eq_getLast?]
    cases hl : w.indents.getLast? with
    | none =>
      have : w.indents = [] := List.getLast?_eq_none_iff.mp hl
      simp [this]
    | some last => simp

/-- C8 counterexample: a link whose sole child is an image with every
attribute in the allow-list but whose `src` differs from the link's
`href` is not rendered as the image form — it falls through to the
verbatim serialization of the external renderer. -/
theorem claim_C8_counterexample :
    (renderAElem id (fun _ => gs "X") Writer.empty
        (.elem (gs "a") [] [(gs "href", gs "u")]
          (nl [.elem (gs "img") [] [(gs "src", gs "v")] (nl [])]))).out = gs "X" ∧
    (renderImgElem id (fun _ => gs "X") Writer.empty
        (.elem (gs "img") [] [(gs "src", gs "v")] (nl []))).out = gs "![](v)" ∧
    (gs "X" : GoStr) ≠ gs "![](v)" := by
  refine ⟨by decide, by decide, by decide⟩

/-- C8 (amended): a link whose only attribute is `href`, whose sole
child is an image with every attribute in the allow-list and whose `src`
equals the link's `href`, renders exactly as the bare image does — the
image form `![alt](url)` — rather than as a plain or nested link. -/
theorem claim_C8_image_link :
    ∀ (rw : GoStr → GoStr) (hr : Node → GoStr) (w : Writer) (u : GoStr)
      (iattrs : Attrs) (kids : NodeList),
      hasOnlyAllowedAttrs (.elem (gs "img") [] iattrs kids) imgAllowedAttrs = true →
      attr (.elem (gs "img") [] iattrs kids) (gs "src") = u →
      renderAElem rw hr w
          (.elem (gs "a") [] [(gs "href", u)] (nl [.elem (gs "img") [] iattrs kids])) =
        renderImgElem rw hr w (.elem (gs "img") [] iattrs kids) ∧
      (handleImage rw w (.elem (gs "img") [] iattrs kids)).2 = true := by
  intro rw hr w u iattrs kids hallow hsrc
  have h3 : (handleImage rw w (.elem (gs "img") [] iattrs kids)).2 = true := by
    simp only [handleImage, hallow]
    rw [if_neg (by simp)]
    split <;> rfl
  refine ⟨?_, h3⟩
  have h1 : isSimpleLink (.elem (gs "a") [] [(gs "href", u)]
      (nl [.elem (gs "img") [] iattrs kids])) = false := by
    simp [isSimpleLink, containsMarkup, nodeChildren, nl]
  have h2 : isImageLink (.elem (gs "a") [] [(gs "href", u)]
      (nl [.elem (gs "img") [] iattrs kids])) = true := by
    have hsrc2 : (match List.find? (fun kv => kv.1 == gs "src") iattrs with
        | some kv => kv.2 | none => []) = u := by
      simpa [attr, nodeAttrs] using hsrc
    simp [isImageLink, nodeAttrs, nodeChildren, nl, isImgElem, attr, hsrc2]
  have h4 : nodeFirstChild (.elem (gs "a") [] [(gs "href", u)]
      (nl [.elem (gs "img") [] iattrs kids])) = .elem (gs "img") [] iattrs kids := by
    simp [nodeFirstChild, nodeChildren, nl]
  simp only [renderAElem, renderImgElem, h1, h2]
  rw [if_pos trivial, h4, if_pos h3, if_pos h3]
  simp

/-- The registry is the fixed three-tag table. -/
theorem shortcodeIsBlock_cases (t : GoStr) (b : Bool) (h : shortcodeIsBlock t = some b) :
    t = gs "caption" ∨ t = gs "wp_caption" ∨ t = gs "latex" := by
  simp only [shortcodeIsBlock] at h
  repeat' split at h
  · exact Or.inl ‹_›
  · exact Or.inr (Or.inl ‹_›)
  · exact Or.inr (Or.inr ‹_›)
  · exact absurd h (by simp)

/-- `parseShortcode` on the escaped form `[[t]]…` of a registered tag:
an escape result consuming both bracket pairs, with the single-bracketed
form as the replacement literal. -/
theorem parseShortcode_escape (t : GoStr) (b : Bool) (h : shortcodeIsBlock t = some b)
    (post : GoStr) :
    parseShortcode ('[' :: (t ++ ']' :: ']' :: post)) =
      .ok ⟨t.length + 3, 0, [], '[' :: (t ++ [']'])⟩ := by
  rcases shortcodeIsBlock_cases t b h with ht | ht | ht <;> subst ht <;>
    simp [parseShortcode, scStartEscape, scP1, scIsClose, scPos, scNameEnd, scTag,
      scanWhile, scanWhileL, goIndex, goSlice, shortcodeIsBlock, isShortname, gs,
      tagOpen, tagClose, List.findIdx?_cons]

/-- One step of the text scan (the structural unfolding of `scanFromF`). -/
theorem scanFromF_succ (fuel : Nat) (data : GoStr) (i : Nat) :
    scanFromF (fuel + 1) data i =
      if i < data.length then
        if data.getD i ' ' = '[' then
          match parseShortcode (data.drop (i + 1)) with
          | .panicked => .panicked
          | .ok r =>
            if r.size ≠ 0 then
              if r.tag = [] then
                scanFromF fuel (data.take i ++ r.rest ++ data.drop (i + 1 + r.size))
                  (i + r.rest.length)
              else
                .tagFound (data.take i) r.openClose r.tag r.rest (data.drop (i + 1 + r.size))
            else scanFromF fuel data (i + 1)
        else scanFromF fuel data (i + 1)
      else .noTag data := rfl

/-- Scanning passes over a run of non-`[` characters unchanged. -/
theorem scanFromF_skip (k : Nat) : ∀ (fuel : Nat) (data : GoStr) (i : Nat),
    (∀ j, i ≤ j → j < i + k → data.getD j ' ' ≠ '[') → i + k ≤ data.length →
    scanFromF (fuel + k) data i = scanFromF fuel data (i + k) := by
  induction k with
  | zero => intro fuel data i _ _; rfl
  | succ k ih =>
    intro fuel data i hne hlen
    have h1 : fuel + (k + 1) = (fuel + k) + 1 := rfl
    rw [h1, scanFromF_succ]
    rw [if_pos (by omega)]
    rw [if_neg (hne i (Nat.le_refl i) (by omega))]
    have h2 := ih fuel data (i + 1) (fun j hj1 hj2 => hne j (by omega) (by omega)) (by omega)
    rw [h2]
    congr 1
    omega

/-- Scanning a text node made of a `[`-free prefix, the escaped form of a
registered tag, and arbitrary following text: the escape is replaced by
the single-bracketed literal in place and scanning continues just past
the replacement, with no tag reported for the escape itself. -/
theorem scanText_escape (t : GoStr) (b : Bool) (hreg : shortcodeIsBlock t = some b)
    (pre post : GoStr) (hpre : ∀ c ∈ pre, c ≠ '[') :
    scanText (pre ++ '[' :: '[' :: (t ++ ']' :: ']' :: post)) =
      scanFromF ((pre ++ '[' :: (t ++ ']' :: post)).length + 1)
        (pre ++ '[' :: (t ++ ']' :: post)) (pre.length + t.length + 2) := by
  set data := pre ++ '[' :: '[' :: (t ++ ']' :: ']' :: post) with hdata
  have hlen : data.length = pre.length + t.length + 4 + post.length := by
    simp [hdata]
    omega
  have hsplit : data.length + 1 = (t.length + post.length + 5) + pre.length := by omega
  rw [scanText, hsplit,
    scanFromF_skip pre.length (t.length + post.length + 5) data 0
      (by
        intro j hj1 hj2
        have hj3 : j < pre.length := by omega
        have hg : data.getD j ' ' = pre.getD j ' ' := by
          simp [hdata, List.getD_eq_getElem?_getD, List.getElem?_append_left hj3]
        rw [hg]
        have hmem : pre.getD j ' ' ∈ pre := by
          simpa [List.getD_eq_getElem?_getD, List.getElem?_eq_getElem hj3] using
            List.getElem_mem hj3
        exact hpre (pre.getD j ' ') hmem
      ) (by omega)]
  rw [Nat.zero_add]
  have h1 : t.length + post.length + 5 = (t.length + post.length + 4) + 1 := rfl
  rw [h1, scanFromF_succ]
  rw [if_pos (by omega)]
  have hget : data.getD pre.length ' ' = '[' := by
    simp [hdata, List.getD_eq_getElem?_getD, List.getElem?_append_right (Nat.le_refl pre.length)]
  rw [if_pos hget]
  have hdrop : data.drop (pre.length + 1) = '[' :: (t ++ ']' :: ']' :: post) := by
    rw [hdata, show pre.length + 1 = pre.length + 1 from rfl, List.drop_append_eq_append_drop]
    simp
  rw [hdrop, parseShortcode_escape t b hreg post]
  dsimp only
  rw [if_pos (by simp), if_pos rfl]
  have htake : data.take pre.length = pre := by
    rw [hdata, List.take_append_eq_append_take]
    simp
  have hdrop2 : data.drop (pre.length + 1 + (t.length + 3)) = post := by
    rw [hdata, List.drop_append_eq_append_drop]
    have he1 : pre.length + 1 + (t.length + 3) - pre.length = t.length + 4 := by omega
    rw [he1, List.drop_eq_nil_of_le (by omega), List.nil_append]
    rw [show t.length + 4 = t.length + 3 + 1 from rfl, List.drop_succ_cons,
      show t.length + 3 = t.length + 2 + 1 from rfl, List.drop_succ_cons,
      List.drop_append_eq_append_drop, List.drop_eq_nil_of_le (by omega), List.nil_append]
    have he2 : t.length + 2 - t.length = 2 := by omega
    rw [he2]
    rfl
  rw [htake, hdrop2]
  have hlenrest : pre.length + ('[' :: (t ++ [']'])).length = pre.length + t.length + 2 := by
    simp
    omega
  rw [hlenrest]
  have hd2 : pre ++ ('[' :: (t ++ [']'])) ++ post = pre ++ '[' :: (t ++ ']' :: post) := by
    simp
  rw [hd2]
  apply scanFromF_irrel
  · simp
    omega
  · simp
    omega

/-- One step of the child-processing loop (the structural unfolding of
`procChildrenF`). -/
theorem procChildrenF_succ (fuel : Nat) (work : NodeList) (slots : List Slot)
    (stack : List Frame) :
    procChildrenF (fuel + 1) work slots stack =
      match work with
      | .nil => if stack ≠ [] then .err (stillOpenMsg stack) else .ok slots
      | .cons .other rest => procChildrenF fuel rest (place slots stack.head? .other) stack
      | .cons (.elem t ns a kids) rest =>
        match procChildrenF fuel kids [] [] with
        | .ok inner =>
          procChildrenF fuel rest (place slots stack.head? (.elem t ns a (finalize inner))) stack
        | .err m => .err m
        | .panicked => .panicked
      | .cons (.text d) rest =>
        match scanText d with
        | .panicked => .panicked
        | .noTag d2 => procChildrenF fuel rest (place slots stack.head? (.text d2)) stack
        | .tagFound pre oc tg restAttrs suffix =>
          let slots1 := place slots stack.head? (.text pre)
          let slots2 := if oc &&& tagOpen ≠ 0 then
              slots1 ++ [.created tg (parseAttrs restAttrs) .nil] else slots1
          let stack1 := if oc &&& tagOpen ≠ 0 then
              (⟨tg, slots1.length⟩ : Frame) :: stack else stack
          if oc &&& tagClose ≠ 0 then
            match stack1 with
            | [] => .panicked
            | f :: fs =>
              if f.tag ≠ tg then .err (mismatchMsg tg f.tag)
              else procChildrenF fuel (.cons (.text suffix) rest) slots2 fs
          else procChildrenF fuel (.cons (.text suffix) rest) slots2 stack1 := rfl

/-- Scanning a text node that is exactly the escaped form of a registered
tag: the whole node becomes the single-bracketed literal, no tag found. -/
theorem scanText_escape_single (t : GoStr) (b : Bool) (hreg : shortcodeIsBlock t = some b) :
    scanText ('[' :: '[' :: (t ++ ']' :: ']' :: [])) = .noTag ('[' :: (t ++ [']'])) := by
  have h := scanText_escape t b hreg [] [] (by simp)
  simp only [List.nil_append, List.length_nil] at h
  rw [h]
  have hl : ('[' :: (t ++ ']' :: ([] : GoStr))).length = t.length + 2 := by simp
  rw [hl, Nat.zero_add, scanFromF_succ, if_neg (by simp)]

/-- `ProcessShortcodes` on a tree whose single text node is the escaped
form of a registered tag: the literal is spliced in, no element created. -/
theorem processShortcodesL_escape_single (t : GoStr) (b : Bool)
    (hreg : shortcodeIsBlock t = some b) :
    processShortcodesL (nl [.text ('[' :: '[' :: (t ++ ']' :: ']' :: []))]) =
      .ok (nl [.text ('[' :: (t ++ [']']))]) := by
  unfold processShortcodesL
  have hsz : nodesSize (nl [.text ('[' :: '[' :: (t ++ ']' :: ']' :: []))]) + 1 =
      (((('[' :: '[' :: (t ++ ']' :: ']' :: [])) : GoStr).length + 1) + 1) := by
    simp [nl, nodesSize, nodeSize]
  rw [hsz, procChildrenF_succ]
  dsimp only [nl]
  rw [scanText_escape_single t b hreg]
  dsimp only
  rw [procChildrenF_succ]
  simp [place, finalize, finalizeSlot, cleanupList, nl]

/-- C5: for every registered tag name `t` (whatever its classification in
the registry), the escaped form `[[t]]` parses to an escape result with
empty tag name, consumed span covering both bracket pairs, and the
single-bracketed literal as replacement; in a text node the literal is
spliced in place with scanning continuing just past it; and the tree
rewrite yields the literal text with no element node created. -/
theorem claim_C5_escape_yields_literal :
    ∀ (t : GoStr) (b : Bool), shortcodeIsBlock t = some b →
      (∀ post, parseShortcode ('[' :: (t ++ ']' :: ']' :: post)) =
        .ok ⟨t.length + 3, 0, [], '[' :: (t ++ [']'])⟩) ∧
      (∀ pre post, (∀ c ∈ pre, c ≠ '[') →
        scanText (pre ++ '[' :: '[' :: (t ++ ']' :: ']' :: post)) =
          scanFromF ((pre ++ '[' :: (t ++ ']' :: post)).length + 1)
            (pre ++ '[' :: (t ++ ']' :: post)) (pre.length + t.length + 2)) ∧
      processShortcodesL (nl [.text ('[' :: '[' :: (t ++ ']' :: ']' :: []))]) =
        .ok (nl [.text ('[' :: (t ++ [']']))]) := by
  intro t b h
  exact ⟨parseShortcode_escape t b h, scanText_escape t b h,
    processShortcodesL_escape_single t b h⟩

/-- Witness for C5 at the registered tag `caption`. -/
theorem claim_C5_escape_yields_literal_witness :
    parseShortcode ('[' :: (gs "caption" ++ ']' :: ']' :: gs "x")) =
      .ok ⟨(gs "caption").length + 3, 0, [], '[' :: (gs "caption" ++ [']'])⟩ ∧
    processShortcodesL (nl [.text ('[' :: '[' :: (gs "caption" ++ ']' :: ']' :: []))]) =
      .ok (nl [.text ('[' :: (gs "caption" ++ [']']))]) :=
  ⟨(claim_C5_escape_yields_literal (gs "caption") true (by decide)).1 (gs "x"),
   (claim_C5_escape_yields_literal (gs "caption") true (by decide)).2.2⟩

/-- On a clean span body, the scan stops exactly at the terminating `$`
that follows it. -/
theorem latexEndL_clean : ∀ (inner post : GoStr), cleanInner inner = true →
    latexEndL (inner ++ '$' :: post) = inner.length
  | [], post, _ => by
    rw [List.nil_append, List.length_nil]
    unfold latexEndL
    rw [if_pos rfl]
  | [c], post, h => by
    simp only [cleanInner] at h
    by_cases hc : c = '$'
    · rw [if_pos hc] at h; exact absurd h (by simp)
    · rw [if_neg hc] at h
      by_cases hbs : c = '\\'
      · rw [if_pos hbs] at h; exact absurd h (by simp)
      · simp only [List.cons_append, List.nil_append, latexEndL, if_neg hc, if_neg hbs,
          List.length_cons, List.length_nil, List.append_eq]
        show 1 + latexEndL ('$' :: post) = 0 + 1
        unfold latexEndL
        rw [if_pos rfl]
  | c :: x :: rest2, post, h => by
    simp only [cleanInner] at h
    by_cases hc : c = '$'
    · rw [if_pos hc] at h; exact absurd h (by simp)
    · rw [if_neg hc] at h
      simp only [List.cons_append, latexEndL, if_neg hc, List.length_cons, List.append_eq]
      by_cases hbs : c = '\\'
      · rw [if_pos hbs] at h ⊢
        rw [latexEndL_clean rest2 post h]
        omega
      · rw [if_neg hbs] at h ⊢
        have hrec := latexEndL_clean (x :: rest2) post h
        simp only [List.cons_append, List.length_cons] at hrec
        rw [hrec]
        omega

/-- On a terminator-free span body, the scan runs at least to the end. -/
theorem latexEndL_noTerm : ∀ (inner : GoStr), noTerm inner = true →
    inner.length ≤ latexEndL inner
  | [], _ => by simp [latexEndL]
  | [c], h => by
    simp only [noTerm] at h
    by_cases hc : c = '$'
    · rw [if_pos hc] at h; exact absurd h (by simp)
    · rw [if_neg hc] at h
      by_cases hbs : c = '\\'
      · simp [latexEndL, if_neg hc, if_pos hbs]
      · simp [latexEndL, if_neg hc, if_neg hbs]
  | c :: x :: rest2, h => by
    simp only [noTerm] at h
    by_cases hc : c = '$'
    · rw [if_pos hc] at h; exact absurd h (by simp)
    · rw [if_neg hc] at h
      simp only [latexEndL, if_neg hc, List.length_cons]
      by_cases hbs : c = '\\'
      · rw [if_pos hbs] at h ⊢
        have := latexEndL_noTerm rest2 h
        omega
      · rw [if_neg hbs] at h ⊢
        have := latexEndL_noTerm (x :: rest2) h
        simp only [List.length_cons] at this
        omega

/-- On a range, find? returns the first index satisfying the predicate. -/
theorem find?_range_some (p : Nat → Bool) : ∀ (n i : Nat), i < n → p i = true →
    (∀ k, k < i → p k = false) → (List.range n).find? p = some i := by
  intro n
  induction n with
  | zero => intro i hi _ _; omega
  | succ n ih =>
    intro i hi hp hb
    rw [List.range_succ, List.find?_append]
    by_cases hin : i < n
    · rw [ih i hin hp hb]; rfl
    · have hieq : i = n := by omega
      have hnone : (List.range n).find? p = none := by
        rw [List.find?_eq_none]
        intro x hx
        rw [List.mem_range] at hx
        simp [hb x (by omega)]
      rw [hnone, hieq]
      simp [List.find?, hieq ▸ hp]

/-- goIndexStr finds the position of the first occurrence of the pattern. -/
theorem goIndexStr_first (s pat : GoStr) (i : Nat) (hi : i ≤ s.length)
    (hocc : pat.isPrefixOf (s.drop i) = true)
    (hb : ∀ k, k < i → pat.isPrefixOf (s.drop k) = false) :
    goIndexStr s pat = (i : Int) := by
  unfold goIndexStr
  rw [find?_range_some (fun k => pat.isPrefixOf (s.drop k)) (s.length + 1) i (by omega) hocc hb]

/-- C6: in the Math-Span Rewriter, a text node whose first marker
occurrence is followed by a span body after which the scan stops at an
unescaped terminating dollar is split: the text before the marker, a
synthetic latex element whose single text child is the inner text, and
processing continues with the text after the terminator (a backslash
consumes the following character and does not terminate the span, as the
cleanInner hypothesis encodes); when the scan finds no terminator, the
text node is left as-is and no error arises. -/
theorem claim_C6_latex_span (fuel : Nat) :
    (∀ (pre inner post : GoStr) (rest : NodeList),
      (∀ k, k < pre.length →
        latexStart.isPrefixOf ((pre ++ latexStart ++ inner ++ '$' :: post).drop k) = false) →
      cleanInner inner = true →
      processLatexListF (fuel + 1)
          (.cons (.text (pre ++ latexStart ++ inner ++ '$' :: post)) rest)
        = .cons (.text pre)
            (.cons (.elem (gs "latex") wpNamespace [] (.cons (.text inner) .nil))
              (processLatexListF fuel (.cons (.text post) rest))))
    ∧ (∀ (pre inner : GoStr) (rest : NodeList),
      (∀ k, k < pre.length →
        latexStart.isPrefixOf ((pre ++ latexStart ++ inner).drop k) = false) →
      noTerm inner = true →
      processLatexListF (fuel + 1) (.cons (.text (pre ++ latexStart ++ inner)) rest)
        = .cons (.text (pre ++ latexStart ++ inner)) (processLatexListF fuel rest)) := by
  constructor
  · intro pre inner post rest hb hclean
    have hd : pre ++ latexStart ++ inner ++ '$' :: post
        = pre ++ (latexStart ++ (inner ++ '$' :: post)) := by
      rw [List.append_assoc, List.append_assoc]
    have hocc : latexStart.isPrefixOf
        ((pre ++ latexStart ++ inner ++ '$' :: post).drop pre.length) = true := by
      rw [hd, List.drop_left]
      exact List.isPrefixOf_iff_prefix.mpr (List.prefix_append _ _)
    have hlen : (pre ++ latexStart ++ inner ++ '$' :: post).length
        = pre.length + latexStart.length + inner.length + 1 + post.length := by
      simp only [List.length_append, List.length_cons]
      omega
    have hfind := goIndexStr_first (pre ++ latexStart ++ inner ++ '$' :: post) latexStart
      pre.length (by rw [hlen]; omega) hocc hb
    have hdrop : (pre ++ latexStart ++ inner ++ '$' :: post).drop
        (pre.length + latexStart.length) = inner ++ '$' :: post := by
      rw [List.append_assoc]
      exact List.drop_left' (by simp [List.length_append])
    have hscan : latexEndScan (pre ++ latexStart ++ inner ++ '$' :: post)
        (pre.length + latexStart.length) = pre.length + latexStart.length + inner.length := by
      rw [latexEndScan, hdrop, latexEndL_clean inner post hclean]
    have htake : (pre ++ latexStart ++ inner ++ '$' :: post).take pre.length = pre := by
      rw [hd]
      exact List.take_left _ _
    have hslice : goSlice (pre ++ latexStart ++ inner ++ '$' :: post)
        (pre.length + latexStart.length) (pre.length + latexStart.length + inner.length)
        = inner := by
      rw [goSlice, hdrop, show pre.length + latexStart.length + inner.length
        - (pre.length + latexStart.length) = inner.length by omega]
      exact List.take_left _ _
    have hdp : (pre ++ latexStart ++ inner ++ '$' :: post).drop
        (pre.length + latexStart.length + inner.length + 1) = post := by
      have h1 : (inner ++ '$' :: post).drop (inner.length + 1) = post := by
        rw [show inner ++ '$' :: post = (inner ++ ['$']) ++ post by
          rw [List.append_assoc]; rfl]
        exact List.drop_left' (by simp)
      rw [show pre.length + latexStart.length + inner.length + 1
        = (pre.length + latexStart.length) + (inner.length + 1) by omega]
      rw [← List.drop_drop, hdrop, h1]
    simp only [processLatexListF]
    rw [hfind]
    simp only [Int.toNat_natCast]
    rw [if_neg (show ¬((pre.length : Int) = -1) by omega)]
    rw [hscan]
    rw [if_pos (show pre.length + latexStart.length + inner.length
      < (pre ++ latexStart ++ inner ++ '$' :: post).length by rw [hlen]; omega)]
    rw [htake, hslice, hdp]
  · intro pre inner rest hb hnt
    have hd : pre ++ latexStart ++ inner = pre ++ (latexStart ++ inner) := by
      rw [List.append_assoc]
    have hocc : latexStart.isPrefixOf
        ((pre ++ latexStart ++ inner).drop pre.length) = true := by
      rw [hd, List.drop_left]
      exact List.isPrefixOf_iff_prefix.mpr (List.prefix_append _ _)
    have hlen : (pre ++ latexStart ++ inner).length
        = pre.length + latexStart.length + inner.length := by
      simp only [List.length_append]
    have hfind := goIndexStr_first (pre ++ latexStart ++ inner) latexStart
      pre.length (by rw [hlen]; omega) hocc hb
    have hdrop : (pre ++ latexStart ++ inner).drop (pre.length + latexStart.length)
        = inner :=
      List.drop_left' (by simp [List.length_append])
    have hge := latexEndL_noTerm inner hnt
    have hscan : latexEndScan (pre ++ latexStart ++ inner) (pre.length + latexStart.length)
        = pre.length + latexStart.length + latexEndL inner := by
      rw [latexEndScan, hdrop]
    simp only [processLatexListF]
    rw [hfind]
    simp only [Int.toNat_natCast]
    rw [if_neg (show ¬((pre.length : Int) = -1) by omega)]
    rw [hscan]
    rw [if_neg (show ¬(pre.length + latexStart.length + latexEndL inner
      < (pre ++ latexStart ++ inner).length) by rw [hlen]; omega)]

/-- Witness for C6: a terminated span with an escaped dollar inside, and
an unterminated one, at concrete inputs. -/
theorem claim_C6_latex_span_witness :
    cleanInner (gs "1+\\$2") = true ∧
    noTerm (gs "1+2 b") = true ∧
    processLatexListF 2 (.cons (.text (gs "a " ++ latexStart ++ gs "1+\\$2" ++ '$' :: gs " b")) .nil)
      = .cons (.text (gs "a "))
          (.cons (.elem (gs "latex") wpNamespace [] (.cons (.text (gs "1+\\$2")) .nil))
            (processLatexListF 1 (.cons (.text (gs " b")) .nil))) ∧
    processLatexListF 2 (.cons (.text (gs "c " ++ latexStart ++ gs "1+2 b")) .nil)
      = .cons (.text (gs "c " ++ latexStart ++ gs "1+2 b")) (processLatexListF 1 .nil) :=
  ⟨by decide, by decide,
   (claim_C6_latex_span 1).1 (gs "a ") (gs "1+\\$2") (gs " b") .nil (by decide) (by decide),
   (claim_C6_latex_span 1).2 (gs "c ") (gs "1+2 b") .nil (by decide) (by decide)⟩

/-- Finalizing plain slots returns the original siblings. -/
theorem finalize_plainList : ∀ (l : NodeList), finalize (plainList l) = l
  | .nil => rfl
  | .cons n rest => by
    have hrec := finalize_plainList rest
    simp only [finalize] at hrec
    simp only [plainList, finalize, List.map_cons, nl, finalizeSlot]
    rw [hrec]

/-- Cleanup leaves a tree without empty text nodes unchanged. -/
theorem cleanupList_id : ∀ (l : NodeList), markupFreeList l = true → cleanupList l = l
  | .nil, _ => rfl
  | .cons (.text d) rest, h => by
    simp only [markupFreeList, markupFreeNode, Bool.and_eq_true, decide_eq_true_eq] at h
    obtain ⟨⟨⟨hne, -⟩, -⟩, hr⟩ := h
    obtain ⟨c, cs, rfl⟩ := List.exists_cons_of_ne_nil hne
    simp only [cleanupList]
    rw [cleanupList_id rest hr]
  | .cons (.elem t ns a kids) rest, h => by
    simp only [markupFreeList, markupFreeNode, Bool.and_eq_true] at h
    simp only [cleanupList]
    rw [cleanupList_id kids h.1, cleanupList_id rest h.2]
  | .cons .other rest, h => by
    simp only [markupFreeList, markupFreeNode, Bool.and_eq_true] at h
    simp only [cleanupList]
    rw [cleanupList_id rest h.2]

/-- The scanning loop finds nothing in a text with no opening bracket. -/
theorem scanFromF_noBracket : ∀ (fuel : Nat) (d : GoStr) (i : Nat), '[' ∉ d →
    d.length ≤ i + fuel → scanFromF fuel d i = .noTag d := by
  intro fuel
  induction fuel with
  | zero => intro d i _ _; rfl
  | succ fuel ih =>
    intro d i hnb hle
    rw [scanFromF_succ]
    by_cases hi : i < d.length
    · rw [if_pos hi]
      have hmem : d.getD i ' ' ∈ d := by
        simpa [List.getD_eq_getElem?_getD, List.getElem?_eq_getElem hi] using
          List.getElem_mem hi
      rw [if_neg (by intro hcon; rw [hcon] at hmem; exact hnb hmem)]
      exact ih d (i + 1) hnb (by omega)
    · rw [if_neg hi]

/-- Scanning a bracket-free text node finds no tag and leaves it as-is. -/
theorem scanText_noBracket (d : GoStr) (hnb : '[' ∉ d) : scanText d = .noTag d :=
  scanFromF_noBracket (d.length + 1) d 0 hnb (by omega)

/-- The shortcode child loop maps a markup-free sibling list to plain
slots, leaving every node unchanged. -/
theorem procChildrenF_inert : ∀ (fuel : Nat) (work : NodeList) (slots : List Slot),
    markupFreeList work = true → nodesSize work < fuel →
    procChildrenF fuel work slots [] = .ok (slots ++ plainList work) := by
  intro fuel
  induction fuel with
  | zero => intro work slots _ h; omega
  | succ fuel ih =>
    intro work slots hm hsz
    rw [procChildrenF_succ]
    match work, hm, hsz with
    | .nil, _, _ =>
      dsimp only
      rw [if_neg (by simp)]
      simp [plainList]
    | .cons .other rest, hm, hsz =>
      dsimp only
      simp only [markupFreeList, markupFreeNode, Bool.and_eq_true] at hm
      simp only [nodesSize, nodeSize] at hsz
      simp only [List.head?_nil, place]
      calc procChildrenF fuel rest (slots ++ [Slot.plain Node.other]) []
          = .ok ((slots ++ [Slot.plain Node.other]) ++ plainList rest) :=
            ih rest _ hm.2 (by omega)
        _ = .ok (slots ++ plainList (NodeList.cons .other rest)) := by
            simp [plainList, List.append_assoc]
    | .cons (.elem t ns a kids) rest, hm, hsz =>
      dsimp only
      simp only [markupFreeList, markupFreeNode, Bool.and_eq_true] at hm
      simp only [nodesSize, nodeSize] at hsz
      rw [ih kids [] hm.1 (by omega)]
      dsimp only
      rw [List.nil_append, finalize_plainList kids]
      simp only [List.head?_nil, place]
      calc procChildrenF fuel rest (slots ++ [Slot.plain (Node.elem t ns a kids)]) []
          = .ok ((slots ++ [Slot.plain (Node.elem t ns a kids)]) ++ plainList rest) :=
            ih rest _ hm.2 (by omega)
        _ = .ok (slots ++ plainList (NodeList.cons (.elem t ns a kids) rest)) := by
            simp [plainList, List.append_assoc]
    | .cons (.text d) rest, hm, hsz =>
      dsimp only
      simp only [markupFreeList, markupFreeNode, Bool.and_eq_true, decide_eq_true_eq] at hm
      obtain ⟨⟨⟨hne, hnb⟩, hlx⟩, hr⟩ := hm
      simp only [nodesSize, nodeSize] at hsz
      rw [scanText_noBracket d hnb]
      dsimp only
      simp only [List.head?_nil, place]
      calc procChildrenF fuel rest (slots ++ [Slot.plain (Node.text d)]) []
          = .ok ((slots ++ [Slot.plain (Node.text d)]) ++ plainList rest) :=
            ih rest _ hr (by omega)
        _ = .ok (slots ++ plainList (NodeList.cons (.text d) rest)) := by
            simp [plainList, List.append_assoc]

/-- The latex pass leaves a marker-free sibling list unchanged. -/
theorem processLatexListF_inert : ∀ (fuel : Nat) (work : NodeList),
    markupFreeList work = true → nodesSize work < fuel →
    processLatexListF fuel work = work := by
  intro fuel
  induction fuel with
  | zero => intro work _ h; omega
  | succ fuel ih =>
    intro work hm hsz
    simp only [processLatexListF]
    match work, hm, hsz with
    | .nil, _, _ => rfl
    | .cons .other rest, hm, hsz =>
      dsimp only
      simp only [markupFreeList, markupFreeNode, Bool.and_eq_true] at hm
      simp only [nodesSize, nodeSize] at hsz
      rw [ih rest hm.2 (by omega)]
    | .cons (.elem t ns a kids) rest, hm, hsz =>
      dsimp only
      simp only [markupFreeList, markupFreeNode, Bool.and_eq_true] at hm
      simp only [nodesSize, nodeSize] at hsz
      rw [ih kids hm.1 (by omega), ih rest hm.2 (by omega)]
    | .cons (.text d) rest, hm, hsz =>
      dsimp only
      simp only [markupFreeList, markupFreeNode, Bool.and_eq_true, decide_eq_true_eq] at hm
      obtain ⟨⟨⟨hne, hnb⟩, hlx⟩, hr⟩ := hm
      simp only [nodesSize, nodeSize] at hsz
      rw [if_pos hlx, ih rest hr (by omega)]

/-- C9 counterexample: the empty text node contains no bracket and no
latex marker, yet both rewriters drop it during cleanup, so the output
tree is not structurally equal to the input tree. -/
theorem claim_C9_counterexample :
    ('[' ∉ ([] : GoStr)) ∧ goIndexStr [] latexStart = -1 ∧
    processShortcodesL (nl [.text []]) = .ok (nl []) ∧
    processWpLatexL (nl [.text []]) = nl [] ∧
    nl [] ≠ nl [.text []] := by
  decide

/-- C9 (amended with nonempty text nodes): on a tree whose text nodes are
nonempty, contain no opening bracket and no latex marker, ProcessShortcodes
succeeds and returns the tree unchanged, and ProcessWpLatex returns the
tree unchanged. -/
theorem claim_C9_no_markup_noop (kids : NodeList) (h : markupFreeList kids = true) :
    processShortcodesL kids = .ok kids ∧ processWpLatexL kids = kids := by
  constructor
  · simp only [processShortcodesL]
    rw [procChildrenF_inert (nodesSize kids + 1) kids [] h (by omega)]
    dsimp only
    rw [List.nil_append, finalize_plainList kids, cleanupList_id kids h]
  · simp only [processWpLatexL]
    rw [processLatexListF_inert (nodesSize kids + 1) kids h (by omega),
      cleanupList_id kids h]

/-- Witness for C9's amended statement at a concrete markup-free tree. -/
theorem claim_C9_no_markup_noop_witness :
    markupFreeList (nl [.text (gs "a"), .elem (gs "p") [] [] (nl [.text (gs "b")]), .other])
      = true ∧
    processShortcodesL (nl [.text (gs "a"), .elem (gs "p") [] [] (nl [.text (gs "b")]), .other])
      = .ok (nl [.text (gs "a"), .elem (gs "p") [] [] (nl [.text (gs "b")]), .other]) ∧
    processWpLatexL (nl [.text (gs "a"), .elem (gs "p") [] [] (nl [.text (gs "b")]), .other])
      = nl [.text (gs "a"), .elem (gs "p") [] [] (nl [.text (gs "b")]), .other] :=
  ⟨by decide,
   (claim_C9_no_markup_noop (nl [.text (gs "a"), .elem (gs "p") [] [] (nl [.text (gs "b")]),
      .other]) (by decide)).1,
   (claim_C9_no_markup_noop (nl [.text (gs "a"), .elem (gs "p") [] [] (nl [.text (gs "b")]),
      .other]) (by decide)).2⟩

theorem getD_append (l u : GoStr) (n : Nat) (h : n < l.length) :
    (l ++ u).getD n ' ' = l.getD n ' ' := by
  simp [List.getD_eq_getElem?_getD, List.getElem?_append_left h]

theorem getD_drop (l : GoStr) (m n : Nat) : (l.drop m).getD n ' ' = l.getD (m + n) ' ' := by
  simp [List.getD_eq_getElem?_getD, List.getElem?_drop]

theorem scanWhileL_append_cons (p : Char → Bool) (c : Char) (hpc : p c = false) :
    ∀ (v u : GoStr), scanWhileL p (v ++ c :: u) = scanWhileL p v
  | [], u => by simp [scanWhileL, hpc]
  | b :: v, u => by
    simp only [List.cons_append, scanWhileL, List.append_eq]
    by_cases hb : p b
    · rw [if_pos hb, if_pos hb, scanWhileL_append_cons p c hpc v u]
    · rw [if_neg hb, if_neg hb]

theorem scanWhile_append_cons (p : Char → Bool) (c : Char) (hpc : p c = false)
    (v u : GoStr) (i : Nat) (hi : i ≤ v.length) :
    scanWhile p (v ++ c :: u) i = scanWhile p v i := by
  simp only [scanWhile]
  rw [List.drop_append_of_le_length hi, scanWhileL_append_cons p c hpc]

theorem findIdxChar_some : ∀ (s : GoStr) (c : Char) (k : Nat),
    s.findIdx? (· == c) = some k →
    k < s.length ∧ s.getD k ' ' = c ∧ ∀ j, j < k → s.getD j ' ' ≠ c := by
  intro s c
  induction s with
  | nil => intro k h; simp [List.findIdx?_nil] at h
  | cons a l ih =>
    intro k h
    rw [List.findIdx?_cons] at h
    by_cases ha : (a == c) = true
    · rw [if_pos ha] at h
      cases h
      exact ⟨by simp, by simpa using ha, by omega⟩
    · rw [if_neg ha, List.findIdx?_succ] at h
      cases hfi : l.findIdx? (· == c) with
      | none => rw [hfi] at h; simp at h
      | some k0 =>
        rw [hfi] at h
        simp only [Option.map_some'] at h
        cases h
        obtain ⟨h1, h2, h3⟩ := ih k0 hfi
        refine ⟨by simp; omega, by simpa [List.getD_cons_succ] using h2, ?_⟩
        intro j hj
        cases j with
        | zero =>
          simp only [List.getD_cons_zero]
          simpa using ha
        | succ j0 => simpa [List.getD_cons_succ] using h3 j0 (by omega)

theorem findIdxChar_none : ∀ (s : GoStr) (c : Char),
    s.findIdx? (· == c) = none → ∀ x ∈ s, x ≠ c := by
  intro s c
  induction s with
  | nil => intro _ x hx; simp at hx
  | cons a l ih =>
    intro h x hx
    rw [List.findIdx?_cons] at h
    by_cases ha : (a == c) = true
    · rw [if_pos ha] at h; cases h
    · rw [if_neg ha, List.findIdx?_succ] at h
      cases hfi : l.findIdx? (· == c) with
      | none =>
        rcases List.mem_cons.mp hx with rfl | hxl
        · simpa using ha
        · exact ih hfi x hxl
      | some k0 => rw [hfi] at h; simp at h

theorem findIdxChar_intro : ∀ (s : GoStr) (c : Char) (k : Nat), k < s.length →
    s.getD k ' ' = c → (∀ j, j < k → s.getD j ' ' ≠ c) →
    s.findIdx? (· == c) = some k := by
  intro s c
  induction s with
  | nil => intro k hk; simp at hk
  | cons a l ih =>
    intro k hk hc hb
    rw [List.findIdx?_cons]
    cases k with
    | zero =>
      rw [if_pos (by simpa using hc)]
    | succ k0 =>
      have ha : ¬((a == c) = true) := by
        have := hb 0 (by omega)
        simpa [List.getD_cons_zero] using this
      rw [if_neg ha, List.findIdx?_succ,
        ih k0 (by simpa using hk) (by simpa [List.getD_cons_succ] using hc)
          (fun j hj => by simpa [List.getD_cons_succ] using hb (j + 1) (by omega))]
      rfl

theorem findIdxChar_none_intro : ∀ (s : GoStr) (c : Char), (∀ x ∈ s, x ≠ c) →
    s.findIdx? (· == c) = none := by
  intro s c
  induction s with
  | nil => intro _; rfl
  | cons a l ih =>
    intro h
    rw [List.findIdx?_cons,
      if_neg (by simpa using h a (List.mem_cons_self a l)), List.findIdx?_succ,
      ih (fun x hx => h x (List.mem_cons_of_mem a hx))]
    rfl

/-- goIndex at the position of the first occurrence. -/
theorem goIndex_eq_of (s : GoStr) (c : Char) (k : Nat) (hk : k < s.length)
    (hc : s.getD k ' ' = c) (hb : ∀ j, j < k → s.getD j ' ' ≠ c) :
    goIndex s c = (k : Int) := by
  unfold goIndex
  rw [findIdxChar_intro s c k hk hc hb]

/-- goIndex of an absent character. -/
theorem goIndex_neg_of (s : GoStr) (c : Char) (h : ∀ x ∈ s, x ≠ c) :
    goIndex s c = -1 := by
  unfold goIndex
  rw [findIdxChar_none_intro s c h]

/-- Total case analysis on goIndex: absent, or a first occurrence. -/
theorem goIndex_spec (s : GoStr) (c : Char) :
    (goIndex s c = -1 ∧ ∀ x ∈ s, x ≠ c) ∨
    (∃ k : Nat, goIndex s c = (k : Int) ∧ k < s.length ∧ s.getD k ' ' = c ∧
      ∀ j, j < k → s.getD j ' ' ≠ c) := by
  cases hfi : s.findIdx? (· == c) with
  | none =>
    left
    exact ⟨by unfold goIndex; rw [hfi], findIdxChar_none s c hfi⟩
  | some k =>
    right
    obtain ⟨h1, h2, h3⟩ := findIdxChar_some s c k hfi
    exact ⟨k, by unfold goIndex; rw [hfi], h1, h2, h3⟩

/-- A prefix closed below an occurrence boundary has no occurrence. -/
theorem goIndex_append_big (t' u : GoStr) (c : Char)
    (h : ∀ j, j < t'.length → (t' ++ u).getD j ' ' ≠ c) : goIndex t' c = -1 := by
  apply goIndex_neg_of
  intro x hx
  obtain ⟨j, hj, hxe⟩ := List.mem_iff_getElem.mp hx
  have hgd : t'.getD j ' ' = x := by
    simp [List.getD_eq_getElem?_getD, List.getElem?_eq_getElem hj, hxe]
  rw [← hgd, ← getD_append t' u j hj]
  exact h j hj

/-- A first occurrence inside the prefix is the prefix's first occurrence. -/
theorem goIndex_append_small (t' u : GoStr) (c : Char) (k : Nat) (hk : k < t'.length)
    (hck : (t' ++ u).getD k ' ' = c) (hbk : ∀ j, j < k → (t' ++ u).getD j ' ' ≠ c) :
    goIndex t' c = (k : Int) := by
  apply goIndex_eq_of t' c k hk
  · rw [← getD_append t' u k hk]; exact hck
  · intro j hj
    rw [← getD_append t' u j (by omega)]
    exact hbk j hj

/-- An accepted escape result means the text begins with a second
opening bracket. -/
theorem parseShortcode_escape_start (text : GoStr) (r : ShortcodeParse)
    (h : parseShortcode text = .ok r) (hsz : r.size ≠ 0) (htag : r.tag = []) :
    0 < text.length ∧ text.getD 0 ' ' = '[' := by
  simp only [parseShortcode] at h
  split at h
  · exact absurd h (by simp)
  · rename_i hlen
    repeat' split at h
    all_goals cases h
    all_goals dsimp only at htag hsz ⊢
    all_goals try simp at hsz
    all_goals try exact absurd htag (scTag_ne_nil text (by omega))
    all_goals
      rename_i hesc
      obtain ⟨hse, -, -, -⟩ := hesc
      simpa [scStartEscape] using hse

/-- The core truncation transfer: a candidate the lexer rejected with a
longer right context (that continues with the `[` beginning a real tag)
is also rejected, without panicking, when the text ends at that `[`. -/
theorem parseShortcode_truncate (t' tail : GoStr) (r : ShortcodeParse)
    (hne : t' ≠ [])
    (hnb : t'.getD 0 ' ' ≠ '[')
    (hclose : t'.getD 0 ' ' = '/' → 2 ≤ t'.length)
    (h : parseShortcode (t' ++ '[' :: tail) = .ok r) (hsz : r.size = 0) :
    ∃ r', parseShortcode t' = .ok r' ∧ r'.size = 0 := by
  have h0 : 0 < t'.length := List.length_pos.mpr hne
  have hg0 : (t' ++ '[' :: tail).getD 0 ' ' = t'.getD 0 ' ' := getD_append _ _ 0 h0
  have hseT : scStartEscape (t' ++ '[' :: tail) = false := by
    simp only [scStartEscape, decide_eq_false_iff_not, not_and]
    intro _
    rw [hg0]; exact hnb
  have hseT' : scStartEscape t' = false := by
    simp only [scStartEscape, decide_eq_false_iff_not, not_and]
    intro _; exact hnb
  have hp1T : scP1 (t' ++ '[' :: tail) = 0 := by simp [scP1, hseT]
  have hp1T' : scP1 t' = 0 := by simp [scP1, hseT']
  have hlenT : 0 < (t' ++ '[' :: tail).length := by simp [List.length_append]
  have hic : scIsClose (t' ++ '[' :: tail) = scIsClose t' := by
    simp only [scIsClose, hp1T, hp1T', hg0]
    rw [decide_eq_decide]
    constructor
    · rintro ⟨-, h2⟩; exact ⟨h0, h2⟩
    · rintro ⟨-, h2⟩; exact ⟨hlenT, h2⟩
  have hposEq : scPos (t' ++ '[' :: tail) = scPos t' := by
    simp only [scPos, hic]
    rw [hp1T, hp1T']
  have hposlt : scPos t' < t'.length := by
    by_cases hcl : scIsClose t' = true
    · have hslash : t'.getD 0 ' ' = '/' := by
        have h2 := hcl
        simp only [scIsClose, hp1T', decide_eq_true_eq] at h2
        exact h2.2
      have hl2 := hclose hslash
      simp only [scPos, if_pos hcl, hp1T']
      omega
    · simp only [scPos, if_neg hcl, hp1T']
      omega
  have hneEq : scNameEnd (t' ++ '[' :: tail) = scNameEnd t' := by
    simp only [scNameEnd, hposEq]
    exact scanWhile_append_cons isShortname '[' (by decide) t' tail (scPos t' + 1) (by omega)
  have hnele : scNameEnd t' ≤ t'.length := by
    simp only [scNameEnd]
    exact scanWhile_le isShortname t' (scPos t' + 1) (by omega)
  have hnegt : scPos t' < scNameEnd t' := scPos_lt_scNameEnd t'
  have htagEq : scTag (t' ++ '[' :: tail) = scTag t' := by
    simp only [scTag, goSlice, hposEq, hneEq,
      List.drop_append_of_le_length (show scPos t' ≤ t'.length by omega)]
    exact List.take_append_of_le_length (by simp only [List.length_drop]; omega)
  have hlenOkT : ¬(scNameEnd t' > (t' ++ '[' :: tail).length) := by
    simp only [List.length_append, List.length_cons]
    omega
  have hlenOk : ¬(scNameEnd t' > t'.length) := by omega
  simp only [parseShortcode] at h
  rw [hneEq, htagEq, hic, hseT] at h
  simp only [Bool.false_eq_true, false_and, if_false] at h
  rw [if_neg hlenOkT] at h
  cases hreg : shortcodeIsBlock (scTag t') with
  | none =>
    rw [hreg] at h
    dsimp only at h
    cases h
    refine ⟨⟨0, if scIsClose t' = true then tagClose else tagOpen, scTag t', []⟩, ?_, rfl⟩
    simp only [parseShortcode]
    rw [if_neg hlenOk, hreg]
  | some block =>
    rw [hreg] at h
    dsimp only at h
    by_cases hbc : ¬(block = true) ∧
        (if scIsClose t' = true then tagClose else tagOpen) = tagClose
    · rw [if_pos hbc] at h
      cases h
      refine ⟨⟨0, if scIsClose t' = true then tagClose else tagOpen, scTag t', []⟩, ?_, rfl⟩
      simp only [parseShortcode]
      rw [if_neg hlenOk, hreg]
      dsimp only
      rw [if_pos hbc]
    · rw [if_neg hbc] at h
      by_cases hend : goIndex (t' ++ '[' :: tail) ']' < (scNameEnd t' : Int)
      · rw [if_pos hend] at h
        cases h
        have hend' : goIndex t' ']' < (scNameEnd t' : Int) := by
          rcases goIndex_spec (t' ++ '[' :: tail) ']' with ⟨hgi, hnone⟩ | ⟨k, hgi, hk, hck, hbk⟩
          · rw [goIndex_append_big t' ('[' :: tail) ']' (fun j hj => by
              have hjlen : j < (t' ++ '[' :: tail).length := by
                simp only [List.length_append]; omega
              have hmem : (t' ++ '[' :: tail).getD j ' ' ∈ t' ++ '[' :: tail := by
                simpa [List.getD_eq_getElem?_getD, List.getElem?_eq_getElem hjlen] using
                  List.getElem_mem hjlen
              exact hnone _ hmem)]
            omega
          · rw [hgi] at hend
            have hklt : k < scNameEnd t' := by exact_mod_cast hend
            rw [goIndex_append_small t' ('[' :: tail) ']' k (by omega) hck hbk]
            exact_mod_cast hklt
        refine ⟨⟨0, if ¬(block = true) then tagOpen ||| tagClose
              else if scIsClose t' = true then tagClose else tagOpen, scTag t', []⟩, ?_, rfl⟩
        simp only [parseShortcode]
        rw [if_neg hlenOk, hreg]
        dsimp only
        rw [if_neg hbc, if_pos hend']
      · rw [if_neg hend] at h
        by_cases hslash : (t' ++ '[' :: tail).getD
            ((goIndex (t' ++ '[' :: tail) ']').toNat - 1) ' ' = '/'
        · rw [if_pos hslash] at h
          cases h
          dsimp only at hsz
          omega
        · rw [if_neg hslash] at h
          by_cases hcc : (if ¬(block = true) then tagOpen ||| tagClose
                else if scIsClose t' = true then tagClose else tagOpen) &&& tagClose ≠ 0 ∧
              scNameEnd t' ≠ (goIndex (t' ++ '[' :: tail) ']').toNat
          · rw [if_pos hcc] at h
            cases h
            rcases goIndex_spec (t' ++ '[' :: tail) ']' with ⟨hgi, hnone⟩ | ⟨k, hgi, hk, hck, hbk⟩
            · rw [hgi] at hend
              exact absurd (by have := scPos_lt_scNameEnd t'; omega) hend
            · rw [hgi] at hend hslash hcc
              have hkge : scNameEnd t' ≤ k := by
                have hni : ¬((k : Int) < (scNameEnd t' : Int)) := hend
                omega
              by_cases hkt : k < t'.length
              · have hgi' : goIndex t' ']' = (k : Int) :=
                  goIndex_append_small t' ('[' :: tail) ']' k hkt hck hbk
                refine ⟨⟨0, if ¬(block = true) then tagOpen ||| tagClose
              else if scIsClose t' = true then tagClose else tagOpen, scTag t', []⟩, ?_, rfl⟩
                simp only [parseShortcode]
                rw [if_neg hlenOk, hreg]
                dsimp only
                rw [if_neg hbc, hgi',
                  if_neg (show ¬((k : Int) < (scNameEnd t' : Int)) by omega),
                  if_neg (by simp [hseT'])]
                rw [show ((k : Int).toNat) = k from by omega] at hslash hcc ⊢
                rw [if_neg (show ¬(t'.getD (k - 1) ' ' = '/') by
                  rw [← getD_append t' ('[' :: tail) (k - 1) (by omega)]
                  exact hslash)]
                rw [if_pos hcc]
              · have hgi' : goIndex t' ']' = -1 :=
                  goIndex_append_big t' ('[' :: tail) ']'
                    (fun j hj => hbk j (by omega))
                refine ⟨⟨0, if ¬(block = true) then tagOpen ||| tagClose
              else if scIsClose t' = true then tagClose else tagOpen, scTag t', []⟩, ?_, rfl⟩
                simp only [parseShortcode]
                rw [if_neg hlenOk, hreg]
                dsimp only
                rw [if_neg hbc, hgi',
                  if_pos (show (-1 : Int) < (scNameEnd t' : Int) by omega)]
          · rw [if_neg hcc] at h
            cases h
            dsimp only at hsz
            omega

theorem getD_take (l : GoStr) (m n : Nat) (h : n < m) :
    (l.take m).getD n ' ' = l.getD n ' ' := by
  simp [List.getD_eq_getElem?_getD, List.getElem?_take, h]

theorem noBB_drop (d : GoStr) (m : Nat) (h : noBB d) : noBB (d.drop m) := by
  intro j hj
  simp only [getD_drop]
  rw [show m + (j + 1) = m + j + 1 from by omega]
  exact h (m + j) (by simp only [List.length_drop] at hj; omega)

theorem noBSB_drop (d : GoStr) (m : Nat) (h : noBSB d) : noBSB (d.drop m) := by
  intro j hj
  simp only [getD_drop]
  rw [show m + (j + 1) = m + j + 1 from by omega,
    show m + (j + 2) = m + j + 2 from by omega]
  exact h (m + j) (by simp only [List.length_drop] at hj; omega)

/-- When the lexer rejects every bracket candidate of a text, the scan
finds nothing and leaves the text unchanged. -/
theorem scanFromF_allReject : ∀ (fuel : Nat) (s : GoStr) (i : Nat),
    (∀ j, i ≤ j → j < s.length → s.getD j ' ' = '[' →
      ∃ rj, parseShortcode (s.drop (j + 1)) = .ok rj ∧ rj.size = 0) →
    s.length ≤ i + fuel → scanFromF fuel s i = .noTag s := by
  intro fuel
  induction fuel with
  | zero => intro s i _ _; rfl
  | succ fuel ih =>
    intro s i hrej hle
    rw [scanFromF_succ]
    by_cases hi : i < s.length
    · rw [if_pos hi]
      by_cases hc : s.getD i ' ' = '['
      · rw [if_pos hc]
        obtain ⟨rj, hpj, hszj⟩ := hrej i (le_refl i) hi hc
        rw [hpj]
        dsimp only
        rw [if_neg (by simp [hszj])]
        exact ih s (i + 1) (fun j hj1 hj2 hj3 => hrej j (by omega) hj2 hj3) (by omega)
      · rw [if_neg hc]
        exact ih s (i + 1) (fun j hj1 hj2 hj3 => hrej j (by omega) hj2 hj3) (by omega)
    · rw [if_neg hi]

/-- Structure of a scan over a text with no doubled bracket: it panics,
finds nothing (leaving the data unchanged, since no escape can fire), or
finds a first real tag at a bracket k, every earlier bracket candidate
having been rejected. -/
theorem scanFromF_brackSafe : ∀ (fuel : Nat) (d : GoStr) (i : Nat), noBB d →
    d.length ≤ i + fuel →
    scanFromF fuel d i = .panicked ∨ scanFromF fuel d i = .noTag d ∨
    ∃ k r, i ≤ k ∧ k < d.length ∧ d.getD k ' ' = '[' ∧
      parseShortcode (d.drop (k + 1)) = .ok r ∧ r.size ≠ 0 ∧ r.tag ≠ [] ∧
      scanFromF fuel d i =
        .tagFound (d.take k) r.openClose r.tag r.rest (d.drop (k + 1 + r.size)) ∧
      ∀ j, i ≤ j → j < k → d.getD j ' ' = '[' →
        ∃ rj, parseShortcode (d.drop (j + 1)) = .ok rj ∧ rj.size = 0 := by
  intro fuel
  induction fuel with
  | zero => intro d i _ hle; right; left; rfl
  | succ fuel ih =>
    intro d i hbb hle
    rw [scanFromF_succ]
    by_cases hi : i < d.length
    · rw [if_pos hi]
      by_cases hc : d.getD i ' ' = '['
      · rw [if_pos hc]
        cases hps : parseShortcode (d.drop (i + 1)) with
        | panicked => left; rfl
        | ok r =>
          dsimp only
          by_cases hsz : r.size ≠ 0
          · rw [if_pos hsz]
            by_cases htg : r.tag = []
            · exfalso
              obtain ⟨hpos, hbr⟩ := parseShortcode_escape_start _ r hps hsz htg
              rw [getD_drop] at hbr
              exact hbb i (by omega) ⟨hc, by simpa using hbr⟩
            · rw [if_neg htg]
              right; right
              exact ⟨i, r, le_refl i, hi, hc, hps, hsz, htg, rfl,
                fun j hj1 hj2 _ => absurd (lt_of_le_of_lt hj1 hj2) (lt_irrefl i)⟩
          · rw [if_neg hsz]
            rcases ih d (i + 1) hbb (by omega) with h1 | h1 |
              ⟨k, rr, hik, hkl, hck, hpk, hszk, htgk, heq, hall⟩
            · left; exact h1
            · right; left; exact h1
            · right; right
              refine ⟨k, rr, by omega, hkl, hck, hpk, hszk, htgk, heq, ?_⟩
              intro j hj1 hj2 hj3
              by_cases hji : j = i
              · subst hji
                exact ⟨r, hps, not_not.mp hsz⟩
              · exact hall j (by omega) hj2 hj3
      · rw [if_neg hc]
        rcases ih d (i + 1) hbb (by omega) with h1 | h1 |
          ⟨k, rr, hik, hkl, hck, hpk, hszk, htgk, heq, hall⟩
        · left; exact h1
        · right; left; exact h1
        · right; right
          refine ⟨k, rr, by omega, hkl, hck, hpk, hszk, htgk, heq, ?_⟩
          intro j hj1 hj2 hj3
          by_cases hji : j = i
          · subst hji; exact absurd hj3 hc
          · exact hall j (by omega) hj2 hj3
    · rw [if_neg hi]
      right; left; rfl

/-- The prefix cut off before a found tag is inert: re-scanning it finds
nothing and leaves it unchanged. -/
theorem scanText_take_inert (d : GoStr) (k : Nat) (hbb : noBB d) (hbsb : noBSB d)
    (hk : k < d.length) (hck : d.getD k ' ' = '[')
    (hall : ∀ j, j < k → d.getD j ' ' = '[' →
      ∃ rj, parseShortcode (d.drop (j + 1)) = .ok rj ∧ rj.size = 0) :
    scanText (d.take k) = .noTag (d.take k) := by
  have hklen : (d.take k).length = k := by
    simp only [List.length_take]
    omega
  apply scanFromF_allReject
  · intro j _ hjlen hjc
    rw [hklen] at hjlen
    rw [getD_take d k j hjlen] at hjc
    obtain ⟨rj, hpj, hszj⟩ := hall j hjlen hjc
    have hjbb := hbb j (by omega)
    have hj1k : j + 1 < k := by
      rcases Nat.lt_or_ge (j + 1) k with hlt | hge
      · exact hlt
      · have hj1e : j + 1 = k := by omega
        exact absurd ⟨hjc, by rw [hj1e]; exact hck⟩ hjbb
    have hx : (d.drop (j + 1)).drop (k - (j + 1)) = '[' :: d.drop (k + 1) := by
      rw [List.drop_drop, show j + 1 + (k - (j + 1)) = k from by omega,
        List.drop_eq_getElem_cons hk]
      congr 1
      simpa [List.getD_eq_getElem?_getD, List.getElem?_eq_getElem hk] using hck
    have hsplit : d.drop (j + 1) = (d.take k).drop (j + 1) ++ ('[' :: d.drop (k + 1)) := by
      rw [List.drop_take]
      conv_lhs => rw [← List.take_append_drop (k - (j + 1)) (d.drop (j + 1))]
      rw [hx]
    rw [hsplit] at hpj
    have htlen : ((d.take k).drop (j + 1)).length = k - (j + 1) := by
      simp only [List.length_drop, hklen]
    have hg0 : ((d.take k).drop (j + 1)).getD 0 ' ' = d.getD (j + 1) ' ' := by
      rw [getD_drop, getD_take d k (j + 1) hj1k]
    apply parseShortcode_truncate ((d.take k).drop (j + 1)) (d.drop (k + 1)) rj
    · intro hcon
      rw [hcon] at htlen
      simp only [List.length_nil] at htlen
      omega
    · rw [hg0]
      intro hcon
      exact hjbb ⟨hjc, hcon⟩
    · rw [hg0]
      intro hsl
      have hjbsb := hbsb j (by omega)
      rcases Nat.lt_or_ge (j + 2) k with hlt | hge
      · omega
      · have hj2e : j + 2 = k := by omega
        exact absurd ⟨hjc, hsl, by rw [hj2e]; exact hck⟩ hjbsb
    · exact hpj
    · exact hszj
  · omega

/-- Per-text-node summary for safe texts: the scan panics, leaves the
node unchanged (then a re-scan trivially does the same), or splits it at
a first tag whose prefix piece is inert. -/
theorem scanText_cases_safe (d : GoStr) (hbb : noBB d) (hbsb : noBSB d) :
    scanText d = .panicked ∨ scanText d = .noTag d ∨
    ∃ k r, k < d.length ∧ d.getD k ' ' = '[' ∧
      parseShortcode (d.drop (k + 1)) = .ok r ∧ r.size ≠ 0 ∧ r.tag ≠ [] ∧
      scanText d = .tagFound (d.take k) r.openClose r.tag r.rest (d.drop (k + 1 + r.size)) ∧
      scanText (d.take k) = .noTag (d.take k) := by
  rcases scanFromF_brackSafe (d.length + 1) d 0 hbb (by omega) with h1 | h1 |
    ⟨k, r, _, hkl, hck, hpk, hszk, htgk, heq, hall⟩
  · left; exact h1
  · right; left; exact h1
  · right; right
    exact ⟨k, r, hkl, hck, hpk, hszk, htgk, heq,
      scanText_take_inert d k hbb hbsb hkl hck
        (fun j hj1 hj2 => hall j (by omega) hj1 hj2)⟩

theorem inertList_append : ∀ (a b : NodeList), inertList a = true →
    inertList b = true → inertList (a.append b) = true
  | .nil, b, _, hb => hb
  | .cons n rest, b, ha, hb => by
    simp only [NodeList.append, inertList, Bool.and_eq_true] at ha ⊢
    exact ⟨ha.1, inertList_append rest b ha.2 hb⟩

theorem slotAddChild_inert (slots : List Slot) (idx : Nat) (n : Node)
    (hs : slotsInert slots = true) (hn : inertNode n = true) :
    slotsInert (slotAddChild slots idx n) = true := by
  unfold slotAddChild
  cases hget : slots.get? idx with
  | none => exact hs
  | some s =>
    cases s with
    | plain m => exact hs
    | created t a c =>
      dsimp only
      simp only [slotsInert, List.all_eq_true] at hs ⊢
      intro x hx
      rcases List.mem_or_eq_of_mem_set hx with hmem | rfl
      · exact hs x hmem
      · have hc : slotInert (.created t a c) = true := hs _ (List.get?_mem hget)
        simp only [slotInert] at hc ⊢
        exact inertList_append c _ hc (by simp [inertList, hn])

theorem place_inert (slots : List Slot) (top : Option Frame) (n : Node)
    (hs : slotsInert slots = true) (hn : inertNode n = true) :
    slotsInert (place slots top n) = true := by
  cases top with
  | none =>
    simp only [place, slotsInert, List.all_append, Bool.and_eq_true]
    exact ⟨hs, by simp [slotInert, hn]⟩
  | some f => exact slotAddChild_inert slots f.idx n hs hn

theorem finalize_inert : ∀ (slots : List Slot), slotsInert slots = true →
    inertList (finalize slots) = true
  | [], _ => rfl
  | s :: rest, hs => by
    simp only [slotsInert, List.all_cons, Bool.and_eq_true] at hs
    have hrec := finalize_inert rest hs.2
    simp only [finalize, List.map_cons, nl, inertList, Bool.and_eq_true]
    refine ⟨?_, by simpa [finalize] using hrec⟩
    cases s with
    | plain n => simpa [finalizeSlot, slotInert] using hs.1
    | created t a c =>
      simp only [finalizeSlot, inertNode]
      simpa [slotInert] using hs.1

theorem inert_cleanupList : ∀ (l : NodeList), inertList l = true →
    inertList (cleanupList l) = true
  | .nil, _ => rfl
  | .cons (.text []) rest, h => by
    simp only [inertList, Bool.and_eq_true] at h
    simp only [cleanupList]
    exact inert_cleanupList rest h.2
  | .cons (.text (c :: cs)) rest, h => by
    simp only [inertList, Bool.and_eq_true] at h
    simp only [cleanupList, inertList, Bool.and_eq_true]
    exact ⟨h.1, inert_cleanupList rest h.2⟩
  | .cons (.elem t ns a kids) rest, h => by
    simp only [inertList, inertNode, Bool.and_eq_true] at h
    simp only [cleanupList, inertList, inertNode, Bool.and_eq_true]
    exact ⟨inert_cleanupList kids h.1, inert_cleanupList rest h.2⟩
  | .cons .other rest, h => by
    simp only [inertList, Bool.and_eq_true] at h
    simp only [cleanupList, inertList, Bool.and_eq_true]
    exact ⟨rfl, inert_cleanupList rest h.2⟩

theorem cleanupList_idem : ∀ (l : NodeList), cleanupList (cleanupList l) = cleanupList l
  | .nil => rfl
  | .cons (.text []) rest => by
    simp only [cleanupList]
    exact cleanupList_idem rest
  | .cons (.text (c :: cs)) rest => by
    simp only [cleanupList]
    rw [cleanupList_idem rest]
  | .cons (.elem t ns a kids) rest => by
    simp only [cleanupList]
    rw [cleanupList_idem kids, cleanupList_idem rest]
  | .cons .other rest => by
    simp only [cleanupList]
    rw [cleanupList_idem rest]

/-- The invariant of the child-processing loop on safe input: whenever it
returns successfully, every produced slot is inert. -/
theorem procChildrenF_safe : ∀ (fuel : Nat) (work : NodeList) (slots : List Slot)
    (stack : List Frame) (out : List Slot),
    safeList work = true → slotsInert slots = true →
    procChildrenF fuel work slots stack = .ok out → slotsInert out = true := by
  intro fuel
  induction fuel with
  | zero =>
    intro work slots stack out _ hs h
    cases h
    exact hs
  | succ fuel ih =>
    intro work slots stack out hsafe hs h
    rw [procChildrenF_succ] at h
    match work, hsafe with
    | .nil, _ =>
      dsimp only at h
      by_cases hst : stack ≠ []
      · rw [if_pos hst] at h
        simp at h
      · rw [if_neg hst] at h
        cases h
        exact hs
    | .cons .other rest, hsafe =>
      dsimp only at h
      simp only [safeList, safeNode, Bool.and_eq_true] at hsafe
      exact ih rest _ stack out hsafe.2
        (place_inert slots stack.head? Node.other hs rfl) h
    | .cons (.elem t ns a kids) rest, hsafe =>
      dsimp only at h
      simp only [safeList, safeNode, Bool.and_eq_true] at hsafe
      cases hin : procChildrenF fuel kids [] [] with
      | ok inner =>
        rw [hin] at h
        dsimp only at h
        exact ih rest _ stack out hsafe.2
          (place_inert slots _ _ hs
            (by simpa [inertNode] using
              finalize_inert inner (ih kids [] [] inner hsafe.1 rfl hin))) h
      | err m => rw [hin] at h; simp at h
      | panicked => rw [hin] at h; simp at h
    | .cons (.text d) rest, hsafe =>
      dsimp only at h
      simp only [safeList, safeNode, Bool.and_eq_true, decide_eq_true_eq] at hsafe
      obtain ⟨⟨hbb, hbsb⟩, hrest⟩ := hsafe
      rcases scanText_cases_safe d hbb hbsb with hsc | hsc |
        ⟨k, r, hk, hck, hpar, hszr, htgr, hsc, hpre⟩
      · rw [hsc] at h
        simp at h
      · rw [hsc] at h
        dsimp only at h
        exact ih rest _ stack out hrest
          (place_inert slots _ _ hs (by simp [inertNode, hsc])) h
      · rw [hsc] at h
        dsimp only at h
        have hpreI : inertNode (.text (d.take k)) = true := by
          simp [inertNode, hpre]
        have hsufSafe : safeList (.cons (.text (d.drop (k + 1 + r.size))) rest) = true := by
          simp only [safeList, safeNode, Bool.and_eq_true, decide_eq_true_eq]
          exact ⟨⟨noBB_drop d _ hbb, noBSB_drop d _ hbsb⟩, hrest⟩
        have hs1 : slotsInert (place slots stack.head? (.text (d.take k))) = true :=
          place_inert slots _ _ hs hpreI
        have hs2o : slotsInert (place slots stack.head? (.text (d.take k)) ++
            [.created r.tag (parseAttrs r.rest) .nil]) = true := by
          simp only [slotsInert, List.all_append, Bool.and_eq_true]
          exact ⟨hs1, by simp [slotInert, inertList]⟩
        by_cases hcl : r.openClose &&& tagClose ≠ 0
        · simp only [if_pos hcl] at h
          by_cases hop : r.openClose &&& tagOpen ≠ 0
          · simp only [if_pos hop] at h
            simp only [if_neg (show ¬(r.tag ≠ r.tag) by simp)] at h
            exact ih _ _ stack out hsufSafe hs2o h
          · simp only [if_neg hop] at h
            cases stack with
            | nil =>
              dsimp only at h
              simp at h
            | cons f fs =>
              dsimp only at h
              by_cases hmt : f.tag ≠ r.tag
              · simp only [if_pos hmt] at h
                simp at h
              · simp only [if_neg hmt] at h
                exact ih _ _ fs out hsufSafe hs1 h
        · simp only [if_neg hcl] at h
          by_cases hop : r.openClose &&& tagOpen ≠ 0
          · simp only [if_pos hop] at h
            exact ih _ _ _ out hsufSafe hs2o h
          · simp only [if_neg hop] at h
            exact ih _ _ stack out hsufSafe hs1 h

/-- On an inert sibling list, the child loop reproduces the siblings as
plain slots. -/
theorem procChildrenF_rerun : ∀ (fuel : Nat) (work : NodeList) (slots : List Slot),
    inertList work = true → nodesSize work < fuel →
    procChildrenF fuel work slots [] = .ok (slots ++ plainList work) := by
  intro fuel
  induction fuel with
  | zero => intro work slots _ h; omega
  | succ fuel ih =>
    intro work slots hm hsz
    rw [procChildrenF_succ]
    match work, hm, hsz with
    | .nil, _, _ =>
      dsimp only
      rw [if_neg (by simp)]
      simp [plainList]
    | .cons .other rest, hm, hsz =>
      dsimp only
      simp only [inertList, inertNode, Bool.and_eq_true] at hm
      simp only [nodesSize, nodeSize] at hsz
      simp only [List.head?_nil, place]
      calc procChildrenF fuel rest (slots ++ [Slot.plain Node.other]) []
          = .ok ((slots ++ [Slot.plain Node.other]) ++ plainList rest) :=
            ih rest _ hm.2 (by omega)
        _ = .ok (slots ++ plainList (NodeList.cons .other rest)) := by
            simp [plainList, List.append_assoc]
    | .cons (.elem t ns a kids) rest, hm, hsz =>
      dsimp only
      simp only [inertList, inertNode, Bool.and_eq_true] at hm
      simp only [nodesSize, nodeSize] at hsz
      rw [ih kids [] hm.1 (by omega)]
      dsimp only
      rw [List.nil_append, finalize_plainList kids]
      simp only [List.head?_nil, place]
      calc procChildrenF fuel rest (slots ++ [Slot.plain (Node.elem t ns a kids)]) []
          = .ok ((slots ++ [Slot.plain (Node.elem t ns a kids)]) ++ plainList rest) :=
            ih rest _ hm.2 (by omega)
        _ = .ok (slots ++ plainList (NodeList.cons (.elem t ns a kids) rest)) := by
            simp [plainList, List.append_assoc]
    | .cons (.text d) rest, hm, hsz =>
      dsimp only
      simp only [inertList, inertNode, Bool.and_eq_true, decide_eq_true_eq] at hm
      obtain ⟨hscan, hr⟩ := hm
      simp only [nodesSize, nodeSize] at hsz
      rw [hscan]
      dsimp only
      simp only [List.head?_nil, place]
      calc procChildrenF fuel rest (slots ++ [Slot.plain (Node.text d)]) []
          = .ok ((slots ++ [Slot.plain (Node.text d)]) ++ plainList rest) :=
            ih rest _ hr (by omega)
        _ = .ok (slots ++ plainList (NodeList.cons (.text d) rest)) := by
            simp [plainList, List.append_assoc]

/-- C3 counterexample: the escape input produces a tree whose text is the
literal single-bracketed form; running the processor again on that result
re-parses the literal as a real opening tag and fails with a still-open
error, so the second run is not a no-op. -/
theorem claim_C3_counterexample :
    processShortcodesL (nl [.text (gs "a[[caption]]b")]) =
      .ok (nl [.text (gs "a[caption]b")]) ∧
    processShortcodesL (nl [.text (gs "a[caption]b")]) =
      .err (stillOpenMsg [⟨gs "caption", 1⟩]) := by
  decide

/-- C3 (amended): for an input tree whose text nodes contain no doubled
opening bracket and no bracket-slash-bracket window, a successful run of
ProcessShortcodes is idempotent: running it again on the produced tree
succeeds and returns that tree unchanged. -/
theorem claim_C3_rerun_idempotent (input T : NodeList)
    (hsafe : safeList input = true)
    (h : processShortcodesL input = .ok T) :
    processShortcodesL T = .ok T := by
  simp only [processShortcodesL] at h
  cases hpc : procChildrenF (nodesSize input + 1) input [] [] with
  | ok slots =>
    rw [hpc] at h
    dsimp only at h
    cases h
    have hT : inertList (cleanupList (finalize slots)) = true :=
      inert_cleanupList _ (finalize_inert slots
        (procChildrenF_safe _ input [] [] slots hsafe rfl hpc))
    simp only [processShortcodesL]
    rw [procChildrenF_rerun _ _ [] hT (by omega)]
    dsimp only
    rw [List.nil_append, finalize_plainList, cleanupList_idem]
  | err m => rw [hpc] at h; simp at h
  | panicked => rw [hpc] at h; simp at h

/-- Witness for C3's amended statement at a concrete safe input. -/
theorem claim_C3_rerun_idempotent_witness :
    safeList (nl [.text (gs "a[caption]b[/caption]c")]) = true ∧
    processShortcodesL (nl [.text (gs "a[caption]b[/caption]c")]) =
      .ok (nl [.text (gs "a"),
               .elem (gs "caption") wpNamespace [] (nl [.text (gs "b")]),
               .text (gs "c")]) ∧
    processShortcodesL (nl [.text (gs "a"),
        .elem (gs "caption") wpNamespace [] (nl [.text (gs "b")]),
        .text (gs "c")]) =
      .ok (nl [.text (gs "a"),
               .elem (gs "caption") wpNamespace [] (nl [.text (gs "b")]),
               .text (gs "c")]) :=
  ⟨by decide, by decide,
   claim_C3_rerun_idempotent (nl [.text (gs "a[caption]b[/caption]c")])
     (nl [.text (gs "a"),
          .elem (gs "caption") wpNamespace [] (nl [.text (gs "b")]),
          .text (gs "c")]) (by decide) (by decide)⟩

/-- Witness for C8's quantified statement at a concrete input. -/
theorem claim_C8_image_link_witness :
    renderAElem id (fun _ => []) Writer.empty
        (.elem (gs "a") [] [(gs "href", gs "u")]
          (nl [.elem (gs "img") [] [(gs "src", gs "u"), (gs "alt", gs "A")] (nl [])])) =
      renderImgElem id (fun _ => []) Writer.empty
        (.elem (gs "img") [] [(gs "src", gs "u"), (gs "alt", gs "A")] (nl [])) ∧
    (handleImage id Writer.empty
        (.elem (gs "img") [] [(gs "src", gs "u"), (gs "alt", gs "A")] (nl []))).2 = true :=
  claim_C8_image_link id (fun _ => []) Writer.empty (gs "u")
    [(gs "src", gs "u"), (gs "alt", gs "A")] (nl []) (by decide) (by decide)

end Wp2block

